import Mathlib

/-!
# otel-cli `exec`: a model of `doExec` (src/otelcli/exec.go)

The development follows the order of `doExec`:

* the span attributes `command` and `arguments` (lines 54-68), with the
  record writer of Go's `encoding/csv` that line 62 calls;
* the environment handed to the child process (lines 75-98);
* the finalize closure `finishSpan` (lines 105-130);
* the two threads of control after the child is launched (lines 131-155):
  the goroutine ranging over the signal channel and the main routine that
  runs the child, defers `finishSpan` and waits on `doneChan`.

The last part models the reader of `encoding/csv`, against which the
`arguments` attribute is read back.

Go strings are modelled by Lean strings. Every byte the code compares with
is ASCII and the one rune it decodes is the first of a field, so on valid
UTF-8 scanning characters and scanning bytes agree.
-/

namespace OtelCli

/-! ## Strings -/

/-- Go's `strings.HasPrefix(s, prefix)`:
`len(s) >= len(prefix) && s[:len(prefix)] == prefix`. -/
def HasPrefix (s pre : String) : Bool :=
  decide (pre.data.length ≤ s.data.length) && (s.data.take pre.data.length == pre.data)

/-- The name of the trace-context variable together with the `=` sign, the
literal of lines 81, 91 and 96. -/
def tpPrefix : String := "TRACEPARENT="

/-- Go's `fmt.Sprintf("TRACEPARENT=%s", v)`. -/
def sprintfTraceparent (v : String) : String := tpPrefix ++ v

/-! ## Trace context and configuration -/

/-- The traceparent value of `otlpclient`: the fields the spec lists for a
TraceContext. -/
structure Traceparent where
  version : Nat
  traceId : String
  spanId : String
  sampling : Bool
  initialized : Bool
deriving DecidableEq, Repr

/-- Status codes of `tracev1.Status`. -/
inductive StatusCode where
  | unset
  | ok
  | error
deriving DecidableEq, Repr

/-- The protobuf `tracev1.Status`. -/
structure Status where
  message : String
  code : StatusCode
deriving DecidableEq, Repr

/-- The attribute mapping `config.Attributes` (a Go `map[string]string`),
kept as an association list with one pair per key. -/
abbrev Attrs := List (String × String)

/-- Read `m[k]`. -/
def Attrs.get (m : Attrs) (k : String) : Option String :=
  (m.find? (fun p => p.1 == k)).map (fun p => p.2)

/-- The map assignment `m[k] = v`. -/
def Attrs.set (m : Attrs) (k v : String) : Attrs :=
  (k, v) :: m.filter (fun p => !(p.1 == k))

/-- The part of `Config` that `doExec` reads or writes: the attribute map,
the answer of `GetIsRecording()`, the flag `TraceparentIgnoreEnv` and the
value `LoadTraceparent()` returns (the inbound trace context). -/
structure Config where
  attributes : Attrs
  isRecording : Bool
  traceparentIgnoreEnv : Bool
  inbound : Traceparent
deriving DecidableEq, Repr

/-- The fields of the protobuf span that `doExec` touches, and the
identifiers the span's own trace context is read from. -/
structure Span where
  traceId : String
  spanId : String
  attributes : Attrs
  endTimeUnixNano : Nat
  status : Option Status
deriving DecidableEq, Repr

/-- Modelled from the spec: `otlpclient.TraceparentFromProtobufSpan`, which
is not in src/. The spec calls its result "the trace context of the span
just created for this run": the span's identifiers, marked initialized. -/
def TraceparentFromProtobufSpan (span : Span) (recording : Bool) : Traceparent :=
  { version := 0, traceId := span.traceId, spanId := span.spanId,
    sampling := recording, initialized := true }

/-! ## The child's environment (lines 75-98) -/

/-- Lines 77-84: copy every inherited entry except the ones that start with
`TRACEPARENT=`. -/
def stripEnv (environ : List String) : List String :=
  environ.foldl (fun acc env => if !HasPrefix env tpPrefix then acc ++ [env] else acc) []

/-- Lines 88-98: the entries appended after the copy. `encode` is
`Traceparent.Encode` of `otlpclient`, which is not in src/. -/
def traceparentEntries (encode : Traceparent → String) (config : Config) (span : Span) :
    List String :=
  if config.isRecording then
    [sprintfTraceparent (encode (TraceparentFromProtobufSpan span config.isRecording))]
  else if !config.traceparentIgnoreEnv then
    let tp := config.inbound
    if tp.initialized then [sprintfTraceparent (encode tp)] else []
  else []

/-- The value of `child.Env` when line 98 is passed. -/
def childEnv (encode : Traceparent → String) (config : Config) (span : Span)
    (environ : List String) : List String :=
  stripEnv environ ++ traceparentEntries encode config span

/-! ## The record writer of `encoding/csv` (called on line 62) -/

/-- Go's `unicode.IsSpace`: the Latin-1 cases and the rest of the
White_Space table. -/
def isSpace (r : Char) : Bool :=
  let n := r.toNat
  if n ≤ 0xFF then
    n == 0x09 || n == 0x0A || n == 0x0B || n == 0x0C || n == 0x0D || n == 0x20 ||
      n == 0x85 || n == 0xA0
  else
    n == 0x1680 || (decide (0x2000 ≤ n) && decide (n ≤ 0x200A)) || n == 0x2028 ||
      n == 0x2029 || n == 0x202F || n == 0x205F || n == 0x3000

/-- The test `c == '\n' || c == '\r' || c == '"' || c == w.Comma` of
`fieldNeedsQuotes`, with the default `Comma = ','`. -/
def isSpecial (c : Char) : Bool :=
  c == '\n' || c == '\r' || c == '"' || c == ','

/-- Method `fieldNeedsQuotes` of `csv.Writer`: the empty field is never
quoted, the field `\.` always is, a field holding a delimiter, a quote or
a line break is, and otherwise a field is quoted when its first rune is a
space. -/
def fieldNeedsQuotes (field : List Char) : Bool :=
  match field with
  | [] => false
  | r1 :: _ =>
    if field = ['\\', '.'] then true
    else if field.any isSpecial then true
    else isSpace r1

/-- The body of a quoted field as `csv.Writer.Write` emits it with
`UseCRLF = false`: every quote is doubled, `\r` and `\n` are copied. -/
def quoteBody : List Char → List Char
  | [] => []
  | c :: cs => (if c = '"' then ['"', '"'] else [c]) ++ quoteBody cs

/-- One field as `csv.Writer.Write` emits it. -/
def writeField (field : List Char) : List Char :=
  if fieldNeedsQuotes field then '"' :: (quoteBody field ++ ['"']) else field

/-- The fields of a record with a comma before every field but the first
(the loop of `csv.Writer.Write`). -/
def writeFields : List (List Char) → List Char
  | [] => []
  | [f] => writeField f
  | f :: g :: fs => writeField f ++ ',' :: writeFields (g :: fs)

/-- Method `Write` of `csv.Writer`: the fields, then the record terminator
`\n` (`UseCRLF` is false on a writer made by `csv.NewWriter`). -/
def Write (record : List (List Char)) : List Char :=
  writeFields record ++ ['\n']

/-- Method `WriteAll` of `csv.Writer` followed by `buf.String()`: every
record written in turn, then flushed to the buffer. -/
def WriteAll (records : List (List String)) : String :=
  ⟨(records.map (fun record => Write (record.map String.data))).flatten⟩

/-! ## The attributes and the span (lines 54-68, 86) -/

/-- Lines 54-63: the configuration after `command` and `arguments` were
written. `args[0]` on an empty list is a run-time panic, here `none`
(cobra's `MinimumNArgs(1)` rejects such a call before `doExec`). -/
def setAttributes (config : Config) (args : List String) : Option Config :=
  match args with
  | [] => none
  | arg0 :: rest =>
    let attrs := (config.attributes.set "command" arg0).set "arguments" ""
    let attrs := if args.length > 1 then attrs.set "arguments" (WriteAll [rest]) else attrs
    some { config with attributes := attrs }

/-- Modelled from the spec: `config.NewProtobufSpan`, which is not in src/.
The spec's span has an identity, an end time and a status that are unset
until finalize, and the attribute mapping of the configuration it is built
from. The identifiers are those minted for this run. -/
def NewProtobufSpan (config : Config) (traceId spanId : String) : Span :=
  { traceId := traceId, spanId := spanId, attributes := config.attributes,
    endTimeUnixNano := 0, status := none }

/-- What `doExec` has built when line 98 is passed: the configuration with
the two attributes, the span, and the child command with its arguments and
environment. -/
structure Launch where
  config : Config
  span : Span
  path : String
  argv : List String
  env : List String
deriving DecidableEq, Repr

/-- Lines 49-98 of `doExec`. `traceId` and `spanId` are the identifiers
`NewProtobufSpan` gives the span, `environ` is `os.Environ()`. -/
def prepare (encode : Traceparent → String) (config : Config) (traceId spanId : String)
    (environ : List String) (args : List String) : Option Launch :=
  match setAttributes config args with
  | none => none
  | some config1 =>
    let span := NewProtobufSpan config1 traceId spanId
    some { config := config1, span := span, path := args.headD "", argv := args.tail,
           env := childEnv encode config1 span environ }

/-! ## Finalize (lines 105-130) -/

/-- The signals registered on line 101 (`os.Interrupt` is `SIGINT`). -/
inductive Signal where
  | interrupt
  | terminated
deriving DecidableEq, Repr

/-- The text `fmt.Println` prints for a signal. -/
def Signal.text : Signal → String
  | .interrupt => "interrupt"
  | .terminated => "terminated"

/-- Go's `os.ProcessState`, of which `doExec` reads the exit code only. -/
structure ProcessState where
  exitCode : Int
deriving DecidableEq, Repr

/-- Method `ExitCode` of `*os.ProcessState`, which line 125 calls on
`child.ProcessState`: `-1` on a nil receiver (the process has not exited),
the state's code otherwise. -/
def ExitCode : Option ProcessState → Int
  | none => -1
  | some p => p.exitCode

/-- What `child.Run()` leaves behind when it returns: `child.ProcessState`
(nil when the command could not be started) and the returned error. -/
structure RunResult where
  processState : Option ProcessState
  err : Option String
deriving DecidableEq, Repr

/-- The child ran and exited with code `c`: `Run` returns nil for code 0 and
an `*exec.ExitError` otherwise. -/
def RunResult.exited (c : Int) : RunResult :=
  { processState := some ⟨c⟩,
    err := if c = 0 then none else some ("exit status " ++ toString c) }

/-- The command could not be started: no process state, and an error. -/
def RunResult.startFailed (msg : String) : RunResult :=
  { processState := none, err := some msg }

/-- The observable actions of `doExec` after the launch, in program order. -/
inductive Effect where
  | println (line : String)
  | sendSpan (span : Span)
  | clientStop
  | softFail (msg : String)
  | setExitCode (code : Int)
  | traceContext (tp : Traceparent)
deriving DecidableEq, Repr

/-- What the world answers to one run of `finishSpan`: the clock reading
of `time.Now().UnixNano()` and the errors of `SendSpan` and `client.Stop`. -/
structure Outcome where
  now : Int
  sendErr : Option String
  stopErr : Option String
deriving DecidableEq, Repr

/-- Modelled from the spec: `config.PropagateTraceparent(span, os.Stdout)`,
which is not in src/. The spec has finalize write the active trace context
to standard output, from the provenance chosen for the child's environment:
the span's own context when recording, the inherited context when it is
used and initialized, and no trace-context output otherwise. The result is
the list of trace contexts written. -/
def PropagateTraceparent (config : Config) (span : Span) : List Traceparent :=
  if config.isRecording then
    [TraceparentFromProtobufSpan span config.isRecording]
  else if !config.traceparentIgnoreEnv then
    if config.inbound.initialized then [config.inbound] else []
  else []

/-- Where the main routine stands after line 138: in `child.Run()`, blocked
on the receive in `wait`, past the receive, or returned from `doExec` with
the deferred `finishSpan` done. -/
inductive MainPc where
  | inRun
  | waiting
  | woken
  | returned
deriving DecidableEq, Repr

/-- Where the goroutine of lines 131-138 stands: blocked on `range c`, or
blocked on the send `doneChan <- true`. -/
inductive HandlerPc where
  | ranging
  | sending
deriving DecidableEq, Repr

/-- State of a run of `doExec` after line 138. `child` is `none` while
`child.Run()` has not returned, `sigChan` is the buffer of channel `c`,
`execExitCode` is `Diag.ExecExitCode` and `trace` lists the effects so far,
oldest first. -/
structure State where
  main : MainPc
  handler : HandlerPc
  sigChan : List Signal
  child : Option RunResult
  span : Span
  execExitCode : Int
  trace : List Effect
deriving DecidableEq, Repr

/-- The value of `child.ProcessState` in a state. -/
def State.processState (s : State) : Option ProcessState :=
  s.child.bind (fun r => r.processState)

/-- Go's `uint64(n)` for an `int64` value. -/
def toUint64 (n : Int) : Nat := (n % 2 ^ 64).toNat

/-- The closure `finishSpan` (lines 105-130), run as one step. `SoftFail`
is not in src/; the spec's soft-fail reports the error and continues. -/
def finishSpan (config : Config) (s : State) (o : Outcome) : State :=
  let span := { s.span with endTimeUnixNano := toUint64 o.now }
  let send :=
    match o.sendErr with
    | some e => [Effect.println ("unable to send span " ++ e),
                 Effect.softFail ("unable to send span: " ++ e)]
    | none => []
  let stop :=
    match o.stopErr with
    | some e => [Effect.softFail ("client.Stop() failed: " ++ e)]
    | none => []
  let code := ExitCode s.processState
  { s with
    span := span
    execExitCode := code
    trace := s.trace ++
      [Effect.println "finishing span",
       Effect.println "sending span...",
       Effect.println ("config.GetIsRecording():  " ++ toString config.isRecording),
       Effect.sendSpan span] ++ send ++
      [Effect.println "span spent??", Effect.clientStop] ++ stop ++
      [Effect.println "client stopped",
       Effect.setExitCode code,
       Effect.println "exit code set"] ++
      (PropagateTraceparent config span).map Effect.traceContext ++
      [Effect.println "propagate traceparent done"] }

/-! ## The two threads (lines 100-104, 131-155) -/

/-- Capacity of the signal channel made on line 100. -/
def sigChanCap : Nat := 100

/-- The status line 141 gives the span: `fmt.Sprintln("exec command failed: ", err)`
puts a space between its operands and a newline at the end. -/
def failedStatus (err : String) : Status :=
  { message := "exec command failed: " ++ " " ++ err ++ "\n", code := StatusCode.error }

/-- What moves a run forward: the operating system delivers a signal to
the wrapper; `child.Run()` returns; the goroutine takes a signal from `c`;
the receive on `doneChan` meets the goroutine's send; `doExec` returns. -/
inductive Event where
  | signal (sig : Signal)
  | childDone (r : RunResult)
  | handle (o : Outcome)
  | receive
  | ret (o : Outcome)
deriving DecidableEq, Repr

/-- One transition. An event that is not enabled leaves the state as it is.
A transition runs one thread at most from one blocking operation to the
next. The program has no synchronisation inside such a stretch (the
goroutine's `finishSpan` reads the span and `child.ProcessState` while
lines 140-145 write them), so it has further interleavings, which are not
modelled; every schedule of the model is an execution of the program.

* `signal`: `signal.Notify` never blocks, a signal that finds the buffer of
  `c` full is dropped.
* `childDone r` (main routine in `child.Run()`): lines 140-155 up to the
  receive in `wait`: the status is set when `Run` returned an error,
  `finishSpan` is deferred, and the routine blocks on `<-doneChan`.
* `handle o` (goroutine in `range c`, a signal buffered): lines 132-135 up
  to the send: the signal is printed, `finishSpan` runs, and the goroutine
  blocks on `doneChan <- true`.
* `receive` (main routine waiting, goroutine sending): the unbuffered
  channel hands the value over; the goroutine goes back to `range c`.
* `ret o` (main routine woken): `wait` and `doExec` return and the deferred
  `finishSpan` runs. -/
def step (config : Config) (s : State) : Event → State
  | .signal sig =>
    if s.sigChan.length < sigChanCap then { s with sigChan := s.sigChan ++ [sig] } else s
  | .childDone r =>
    match s.main with
    | .inRun =>
      let span :=
        match r.err with
        | some e => { s.span with status := some (failedStatus e) }
        | none => s.span
      { s with
        main := MainPc.waiting
        child := some r
        span := span
        trace := s.trace ++ [Effect.println "about to call wait", Effect.println "in wait"] }
    | _ => s
  | .handle o =>
    match s.handler, s.sigChan with
    | .ranging, sig :: rest =>
      let s1 := { s with sigChan := rest
                         trace := s.trace ++ [Effect.println ("sig:  " ++ sig.text)] }
      { finishSpan config s1 o with handler := HandlerPc.sending }
    | _, _ => s
  | .receive =>
    match s.main, s.handler with
    | .waiting, .sending =>
      { s with main := MainPc.woken
               handler := HandlerPc.ranging
               trace := s.trace ++ [Effect.println "done pulled"] }
    | _, _ => s
  | .ret o =>
    match s.main with
    | .woken => { finishSpan config s o with main := MainPc.returned }
    | _ => s

/-- The state when the goroutine has been started (line 138) and the main
routine enters `child.Run()`. `diag` is the value `Diag.ExecExitCode` has
on entry. -/
def initial (span : Span) (diag : Int) : State :=
  { main := MainPc.inRun, handler := HandlerPc.ranging, sigChan := [], child := none,
    span := span, execExitCode := diag, trace := [] }

/-- A run: the events of a schedule applied in order. -/
def run (config : Config) (s : State) (events : List Event) : State :=
  events.foldl (step config) s

/-- The span handed to `SendSpan` by an effect, if it is an export. -/
def Effect.sent : Effect → Option Span
  | .sendSpan sp => some sp
  | _ => none

/-- The code written to `Diag.ExecExitCode` by an effect, if it is one. -/
def Effect.recorded : Effect → Option Int
  | .setExitCode c => some c
  | _ => none

/-- The trace context written to standard output by an effect, if any. -/
def Effect.context : Effect → Option Traceparent
  | .traceContext tp => some tp
  | _ => none

/-- The spans exported so far, oldest first: one per run of `finishSpan`. -/
def exports (s : State) : List Span := s.trace.filterMap Effect.sent

/-- The exit codes written to `Diag.ExecExitCode`, oldest first. -/
def exitCodes (s : State) : List Int := s.trace.filterMap Effect.recorded

/-- The trace contexts written to standard output, oldest first. -/
def traceContexts (s : State) : List Traceparent := s.trace.filterMap Effect.context

/-- A schedule in which no signal reaches the wrapper. -/
def signalFree (events : List Event) : Bool :=
  events.all (fun e => match e with | .signal _ => false | _ => true)

/-- The state lines 100-155 reach on a schedule, from what lines 49-98
have built. -/
def reach (l : Launch) (diag : Int) (events : List Event) : State :=
  run l.config (initial l.span diag) events

/-- The whole of `doExec` on a schedule: lines 49-98, then the two threads. -/
def doExec (encode : Traceparent → String) (config : Config) (traceId spanId : String)
    (environ : List String) (args : List String) (diag : Int) (events : List Event) :
    Option State :=
  (prepare encode config traceId spanId environ args).map (fun l => reach l diag events)

/-! ## The record reader of `encoding/csv`

The decoder that pairs with `csv.Writer`: `csv.NewReader(r).ReadAll()` with
the reader's default settings (`Comma = ','`, no comment character,
`FieldsPerRecord = 0`, `LazyQuotes` and `TrimLeadingSpace` off), reading
from a string, so that the only read error is the end of input. -/

/-- Errors of the reader. `outOfFuel` is not an error of Go's reader: it
marks a loop of this model that was cut off by its iteration bound. -/
inductive CsvError where
  | bareQuote
  | quote
  | fieldCount
  | outOfFuel
deriving DecidableEq, Repr

/-- The function `lengthNL` of the reader: the number of bytes of the
trailing `\n`. -/
def lengthNL (b : List Char) : Nat :=
  if b.getLast? = some '\n' then 1 else 0

/-- The call `bufio.Reader.ReadSlice('\n')` on the rest of the input: the
bytes up to and including the first `\n`, what follows, and whether the
end of input was hit before a `\n`. -/
def readSlice : List Char → List Char × List Char × Bool
  | [] => ([], [], true)
  | c :: cs =>
    if c = '\n' then ([c], cs, false)
    else
      let r := readSlice cs
      (c :: r.1, r.2.1, r.2.2)

/-- Method `readLine` of `csv.Reader`: a line with its `\n`; a last line
without `\n` is no error and loses a trailing `\r`; a line end `\r\n`
becomes `\n`. The result is the line, the rest of the input, and whether
the error is `io.EOF`. -/
def readLine (input : List Char) : List Char × List Char × Bool :=
  let r := readSlice input
  let atEnd := decide (0 < r.1.length) && r.2.2
  let line1 := if atEnd && (r.1.getLast? == some '\r') then r.1.dropLast else r.1
  let eof := if atEnd then false else r.2.2
  let n := line1.length
  let line2 :=
    if decide (2 ≤ n) && (line1.drop (n - 2) == ['\r', '\n']) then line1.take (n - 2) ++ ['\n']
    else line1
  (line2, r.2.1, eof)

/-- The pair `(b[:i], b[i+1:])` for `i = bytes.IndexByte(b, c)`, or `none`
when `c` does not occur in `b`. -/
def cut (c : Char) : List Char → Option (List Char × List Char)
  | [] => none
  | x :: xs => if x = c then some ([], xs) else (cut c xs).map (fun p => (x :: p.1, p.2))

/-- The loop of `readRecord` over a quoted field, entered after the opening
quote. `line` is the unread part of the current line, `rest` the input
after it and `buf` the field so far. The result is the field, the rest of
the line when a comma ended the field (`none` when the line end did), and
the input after the line. A line without a closing quote is appended whole
and the next line is read; the end of input inside the field is `ErrQuote`. -/
def quotedField : Nat → List Char → List Char → List Char →
    Except CsvError (List Char × Option (List Char) × List Char)
  | 0, _, _, _ => .error .outOfFuel
  | fuel + 1, line, rest, buf =>
    match cut '"' line with
    | some (pre, post) =>
      match post with
      | [] => .ok (buf ++ pre, none, rest)
      | c :: post1 =>
        if c = '"' then quotedField fuel post1 rest (buf ++ pre ++ ['"'])
        else if c = ',' then .ok (buf ++ pre, some post1, rest)
        else if lengthNL post = post.length then .ok (buf ++ pre, none, rest)
        else .error .quote
    | none =>
      if 0 < line.length then
        let r := readLine rest
        quotedField fuel r.1 r.2.1 (buf ++ line)
      else .error .quote

/-- The loop `parseField` of `readRecord`: the fields of the record that
starts with `line`, and the input left after the record. A field that does
not start with a quote runs to the next comma or to the line end and must
not hold a quote (`ErrBareQuote`). -/
def parseFields : Nat → List Char → List Char → List (List Char) →
    Except CsvError (List (List Char) × List Char)
  | 0, _, _, _ => .error .outOfFuel
  | fuel + 1, line, rest, fields =>
    if line.head? ≠ some '"' then
      match cut ',' line with
      | some (field, line1) =>
        if '"' ∈ field then .error .bareQuote
        else parseFields fuel line1 rest (fields ++ [field])
      | none =>
        let field := line.take (line.length - lengthNL line)
        if '"' ∈ field then .error .bareQuote
        else .ok (fields ++ [field], rest)
    else
      match quotedField (line.length + rest.length + 1) line.tail rest [] with
      | .error e => .error e
      | .ok (field, some line1, rest1) => parseFields fuel line1 rest1 (fields ++ [field])
      | .ok (field, none, rest1) => .ok (fields ++ [field], rest1)

/-- The first loop of `readRecord`: read lines until one is not empty. -/
def nextLine : Nat → List Char → Except CsvError (List Char × List Char × Bool)
  | 0, _ => .error .outOfFuel
  | fuel + 1, input =>
    let r := readLine input
    if r.2.2 = false ∧ r.1.length = lengthNL r.1 then nextLine fuel r.2.1
    else .ok r

/-- Method `readRecord`: `none` for `io.EOF`, else the fields of the next
record; with them the input that is left. -/
def readRecord (input : List Char) :
    Except CsvError (Option (List (List Char)) × List Char) :=
  match nextLine (input.length + 1) input with
  | .error e => .error e
  | .ok (line, rest, eof) =>
    if eof then .ok (none, rest)
    else
      match parseFields (line.length + rest.length + 1) line rest [] with
      | .error e => .error e
      | .ok (fields, rest1) => .ok (some fields, rest1)

/-- The loop of `ReadAll` with the reader's field `FieldsPerRecord`: zero
until the first record sets it, after which every record must have that
many fields (`ErrFieldCount`). -/
def readAllLoop : Nat → List Char → Nat → List (List (List Char)) →
    Except CsvError (List (List (List Char)))
  | 0, _, _, _ => .error .outOfFuel
  | fuel + 1, input, fieldsPerRecord, records =>
    match readRecord input with
    | .error e => .error e
    | .ok (none, _) => .ok records
    | .ok (some record, rest) =>
      if 0 < fieldsPerRecord ∧ record.length ≠ fieldsPerRecord then .error .fieldCount
      else
        readAllLoop fuel rest (if fieldsPerRecord = 0 then record.length else fieldsPerRecord)
          (records ++ [record])

/-- The call `csv.NewReader(strings.NewReader(input)).ReadAll()`. -/
def ReadAll (input : String) : Except CsvError (List (List String)) :=
  match readAllLoop (input.data.length + 1) input.data 0 [] with
  | .error e => .error e
  | .ok records => .ok (records.map (fun record => record.map String.mk))

/-- A carriage return immediately followed by a line feed occurs in `l`. -/
def hasCRLF : List Char → Bool
  | [] => false
  | c :: cs => (c == '\r' && cs.head? == some '\n') || hasCRLF cs

/-- A line as `readLine` hands it to the field loop when the input goes on
to a line end: some bytes without `\n`, then `\n`. -/
def EndsLine (line : List Char) : Prop :=
  ∃ pre, line = pre ++ ['\n'] ∧ '\n' ∉ pre

/-! ## Invariants of the two threads -/

/-- What holds in every state a run reaches from a span created with its
status unset: exit codes and exports come in pairs; the child's result and
the span's status agree with the place of the main routine; the goroutine
blocks on its send, and the main routine is past its receive, only after
an export; `doExec` has returned only after two exports, the later one
made when `child.Run()` had returned. -/
def Inv (s : State) : Prop :=
  (exitCodes s).length = (exports s).length ∧
  (s.main = MainPc.inRun → s.child = none ∧ s.span.status = none) ∧
  (s.main ≠ MainPc.inRun → ∃ r, s.child = some r ∧ s.span.status = r.err.map failedStatus) ∧
  (s.handler = HandlerPc.sending → 1 ≤ (exports s).length) ∧
  (s.main = MainPc.woken → 1 ≤ (exports s).length) ∧
  (s.main = MainPc.returned → 2 ≤ (exports s).length ∧
    ∃ r, s.child = some r ∧ s.execExitCode = ExitCode r.processState)

/-- Every run of `finishSpan` writes as many trace contexts as any other. -/
def CtxInv (config : Config) (s : State) : Prop :=
  (traceContexts s).length = (exports s).length * (PropagateTraceparent config s.span).length

/-- What holds as long as no signal has reached the wrapper: the channel
`c` is empty, the goroutine blocks on `range c`, `finishSpan` has not run,
`Diag.ExecExitCode` has the value `diag` it had on entry, and the main
routine is in `child.Run()` or blocked in `wait`. -/
def Quiet (diag : Int) (s : State) : Prop :=
  s.sigChan = [] ∧ s.handler = HandlerPc.ranging ∧ s.trace.filterMap Effect.sent = [] ∧
  s.trace.filterMap Effect.recorded = [] ∧ s.trace.filterMap Effect.context = [] ∧
  s.execExitCode = diag ∧ (s.main = MainPc.inRun ∨ s.main = MainPc.waiting)

/-! ## Sample values -/

/-- A trace context as it comes in through `TRACEPARENT`. -/
def sampleInbound : Traceparent :=
  { version := 0, traceId := "0af7651916cd43dd8448eb211c80319c", spanId := "b7ad6b7169203331",
    sampling := true, initialized := true }

/-- A configuration that records. -/
def recordingConfig : Config :=
  { attributes := [], isRecording := true, traceparentIgnoreEnv := false,
    inbound := sampleInbound }

/-- A configuration that does not record and passes the inbound context on. -/
def passingConfig : Config :=
  { attributes := [], isRecording := false, traceparentIgnoreEnv := false,
    inbound := sampleInbound }

/-- A configuration that does not record and ignores the environment. -/
def ignoringConfig : Config :=
  { attributes := [], isRecording := false, traceparentIgnoreEnv := true,
    inbound := sampleInbound }

/-- An encoder in the W3C layout, for the sample values. -/
def sampleEncode (tp : Traceparent) : String :=
  "00-" ++ tp.traceId ++ "-" ++ tp.spanId ++ (if tp.sampling then "-01" else "-00")

/-- An inherited environment with two stale trace-context entries. -/
def sampleEnviron : List String :=
  ["PATH=/bin", "TRACEPARENT=00-11-22-01", "HOME=/root", "TRACEPARENT=00-33-44-00"]

/-- A finalize in which the exporter reports no error. -/
def quietOutcome : Outcome := { now := 1700000000000000000, sendErr := none, stopErr := none }

/-- A signal arrives and is handled while the child still runs; then the
child exits with code 7, the main routine receives and `doExec` returns. -/
def signalFirst : List Event :=
  [Event.signal Signal.terminated, Event.handle quietOutcome,
   Event.childDone (RunResult.exited 7), Event.receive, Event.ret quietOutcome]


/-! # Proofs -/


/-! ## The child's environment -/


/-- The copy loop of lines 80-84 is a filter. -/
theorem stripEnv_eq_filter (environ : List String) :
    stripEnv environ = environ.filter (fun e => !HasPrefix e tpPrefix) := by
  have h : ∀ (l acc : List String),
      l.foldl (fun acc env => if !HasPrefix env tpPrefix then acc ++ [env] else acc) acc
        = acc ++ l.filter (fun e => !HasPrefix e tpPrefix) := by
    intro l
    induction l with
    | nil => intro acc; simp
    | cons e l ih =>
      intro acc
      rw [List.foldl_cons, ih]
      cases hp : HasPrefix e tpPrefix <;> simp [hp]
  simpa [stripEnv] using h environ []

theorem hasPrefix_sprintf (v : String) : HasPrefix (sprintfTraceparent v) tpPrefix = true := by
  simp [HasPrefix, sprintfTraceparent, String.data_append]

theorem countP_stripEnv (environ : List String) :
    (stripEnv environ).countP (fun e => HasPrefix e tpPrefix) = 0 := by
  rw [stripEnv_eq_filter, List.countP_eq_zero]
  intro e he
  simp at he
  simp [he.2]

theorem countP_entries_le (encode : Traceparent → String) (config : Config) (span : Span) :
    (traceparentEntries encode config span).countP (fun e => HasPrefix e tpPrefix) ≤ 1 := by
  unfold traceparentEntries
  split
  · simp [hasPrefix_sprintf]
  · split
    · dsimp only
      split <;> simp [hasPrefix_sprintf]
    · simp

/-! ## Finalize and the two threads -/


theorem sent_map_context (l : List Traceparent) :
    (l.map Effect.traceContext).filterMap Effect.sent = [] := by
  induction l with
  | nil => rfl
  | cons a l ih => simp [Effect.sent]

theorem recorded_map_context (l : List Traceparent) :
    (l.map Effect.traceContext).filterMap Effect.recorded = [] := by
  induction l with
  | nil => rfl
  | cons a l ih => simp [Effect.recorded]

theorem context_map_context (l : List Traceparent) :
    (l.map Effect.traceContext).filterMap Effect.context = l := by
  induction l with
  | nil => rfl
  | cons a l ih => simpa [Effect.context] using ih

theorem finishSpan_sent (config : Config) (s : State) (o : Outcome) :
    (finishSpan config s o).trace.filterMap Effect.sent =
      s.trace.filterMap Effect.sent ++ [{ s.span with endTimeUnixNano := toUint64 o.now }] := by
  cases hs : o.sendErr <;> cases ht : o.stopErr <;>
    simp [-List.filterMap_map, finishSpan, hs, ht, List.filterMap_append, sent_map_context,
      Effect.sent]

theorem finishSpan_recorded (config : Config) (s : State) (o : Outcome) :
    (finishSpan config s o).trace.filterMap Effect.recorded =
      s.trace.filterMap Effect.recorded ++ [ExitCode s.processState] := by
  cases hs : o.sendErr <;> cases ht : o.stopErr <;>
    simp [-List.filterMap_map, finishSpan, hs, ht, List.filterMap_append, recorded_map_context,
      Effect.recorded]

theorem finishSpan_context (config : Config) (s : State) (o : Outcome) :
    (finishSpan config s o).trace.filterMap Effect.context =
      s.trace.filterMap Effect.context ++
      PropagateTraceparent config { s.span with endTimeUnixNano := toUint64 o.now } := by
  cases hs : o.sendErr <;> cases ht : o.stopErr <;>
    simp [-List.filterMap_map, finishSpan, hs, ht, List.filterMap_append, context_map_context,
      Effect.context]

theorem finishSpan_main (config : Config) (s : State) (o : Outcome) :
    (finishSpan config s o).main = s.main := rfl

theorem finishSpan_handler (config : Config) (s : State) (o : Outcome) :
    (finishSpan config s o).handler = s.handler := rfl

theorem finishSpan_sigChan (config : Config) (s : State) (o : Outcome) :
    (finishSpan config s o).sigChan = s.sigChan := rfl

theorem finishSpan_child (config : Config) (s : State) (o : Outcome) :
    (finishSpan config s o).child = s.child := rfl

theorem finishSpan_status (config : Config) (s : State) (o : Outcome) :
    (finishSpan config s o).span.status = s.span.status := rfl

theorem finishSpan_execExitCode (config : Config) (s : State) (o : Outcome) :
    (finishSpan config s o).execExitCode = ExitCode s.processState := rfl

/-- The invariant holds when the threads start, for a span whose status is
unset. -/
theorem inv_initial (span : Span) (diag : Int) (h : span.status = none) :
    Inv (initial span diag) := by
  simp [Inv, initial, exports, exitCodes, h]

/-- Every transition keeps the invariant. -/
theorem inv_step (config : Config) (s : State) (e : Event) (h : Inv s) :
    Inv (step config s e) := by
  have h0 := h
  obtain ⟨h1, h2, h3, h4, h5, h6⟩ := h
  simp only [exports, exitCodes] at h1 h4 h5 h6
  cases e with
  | signal sig =>
    simp only [step]
    split
    · exact ⟨h1, h2, h3, h4, h5, h6⟩
    · exact h0
  | childDone r =>
    simp only [step]
    split
    · next hm =>
      obtain ⟨hc, hst⟩ := h2 hm
      refine ⟨?_, ?_, ?_, ?_, ?_, ?_⟩
      · simpa [exports, exitCodes, List.filterMap_append, Effect.sent, Effect.recorded] using h1
      · simp
      · cases hr : r.err <;> simp [hr, hst]
      · intro hh
        have := h4 hh
        simpa [exports, List.filterMap_append, Effect.sent] using this
      · simp
      · simp
    · exact h0
  | handle o =>
    simp only [step]
    split
    · next sig rest hh hc =>
      simp only [Inv, exports, exitCodes, finishSpan_sent, finishSpan_recorded, finishSpan_main,
        finishSpan_child, finishSpan_status, finishSpan_execExitCode, State.processState]
      refine ⟨?_, h2, h3, ?_, ?_, ?_⟩
      · simpa [List.filterMap_append, Effect.sent, Effect.recorded] using h1
      · intro _; simp; omega
      · intro _; simp; omega
      · intro hm
        obtain ⟨h6a, r, hr, -⟩ := h6 hm
        refine ⟨?_, r, hr, ?_⟩
        · simp [List.filterMap_append, Effect.sent]; omega
        · simp [hr]
    · exact h0
  | receive =>
    simp only [step]
    split
    · next hm hh =>
      have hne : s.main ≠ MainPc.inRun := by simp [hm]
      refine ⟨?_, ?_, ?_, ?_, ?_, ?_⟩
      · simpa [exports, exitCodes, List.filterMap_append, Effect.sent, Effect.recorded] using h1
      · simp
      · intro _
        simpa using h3 hne
      · simp
      · intro _
        simpa [exports, List.filterMap_append, Effect.sent] using h4 hh
      · simp
    · exact h0
  | ret o =>
    simp only [step]
    split
    · next hm =>
      have hne : s.main ≠ MainPc.inRun := by simp [hm]
      obtain ⟨r, hr, hst⟩ := h3 hne
      simp only [Inv, exports, exitCodes, finishSpan_sent, finishSpan_recorded, finishSpan_handler,
        finishSpan_child, finishSpan_status, finishSpan_execExitCode, State.processState]
      refine ⟨?_, ?_, ?_, ?_, ?_, ?_⟩
      · simp [h1]
      · simp
      · intro _
        exact ⟨r, hr, hst⟩
      · intro _; simp
      · simp
      · intro _
        refine ⟨?_, r, hr, ?_⟩
        · have := h5 hm
          simp; omega
        · simp [hr]
    · exact h0

/-- Every state a run reaches satisfies the invariant. -/
theorem inv_run (config : Config) (events : List Event) (s : State) (h : Inv s) :
    Inv (run config s events) := by
  induction events generalizing s with
  | nil => exact h
  | cons e es ih => exact ih _ (inv_step config s e h)

theorem propagate_length (config : Config) (sp sp1 : Span) :
    (PropagateTraceparent config sp).length = (PropagateTraceparent config sp1).length := by
  unfold PropagateTraceparent
  split
  · rfl
  · split
    · split <;> rfl
    · rfl

theorem ctxInv_step (config : Config) (s : State) (e : Event) (h : CtxInv config s) :
    CtxInv config (step config s e) := by
  have h0 := h
  simp only [CtxInv, exports, traceContexts] at h
  cases e with
  | signal sig =>
    simp only [step]
    split
    · exact h
    · exact h0
  | childDone r =>
    simp only [step]
    split
    · simp only [CtxInv, exports, traceContexts]
      rw [propagate_length config _ s.span]
      simpa [List.filterMap_append, Effect.sent, Effect.context] using h
    · exact h0
  | handle o =>
    simp only [step]
    split
    · simp only [CtxInv, exports, traceContexts, finishSpan_sent, finishSpan_context]
      rw [propagate_length config _ s.span]
      simp [List.filterMap_append, Effect.sent, Effect.context, h, Nat.add_mul,
        propagate_length config _ s.span]
    · exact h0
  | receive =>
    simp only [step]
    split
    · simp only [CtxInv, exports, traceContexts]
      simpa [List.filterMap_append, Effect.sent, Effect.context] using h
    · exact h0
  | ret o =>
    simp only [step]
    split
    · simp only [CtxInv, exports, traceContexts, finishSpan_sent, finishSpan_context]
      rw [propagate_length config _ s.span]
      simp [List.filterMap_append, h, Nat.add_mul, propagate_length config _ s.span]
    · exact h0

theorem ctxInv_run (config : Config) (events : List Event) (s : State) (h : CtxInv config s) :
    CtxInv config (run config s events) := by
  induction events generalizing s with
  | nil => exact h
  | cons e es ih => exact ih _ (ctxInv_step config s e h)

/-- Without a signal nothing but the child's termination changes the state. -/
theorem quiet_step (config : Config) (diag : Int) (s : State) (e : Event)
    (he : signalFree [e] = true) (h : Quiet diag s) : Quiet diag (step config s e) := by
  obtain ⟨h1, h2, h3, h4, h5, h6, h7⟩ := h
  cases e with
  | signal sig => simp [signalFree] at he
  | childDone r =>
    simp only [step]
    split
    · exact ⟨h1, h2, by simp [List.filterMap_append, Effect.sent, h3],
        by simp [List.filterMap_append, Effect.recorded, h4],
        by simp [List.filterMap_append, Effect.context, h5], h6, Or.inr rfl⟩
    · exact ⟨h1, h2, h3, h4, h5, h6, h7⟩
  | handle o =>
    simp only [step]
    split
    · next sig rest hh hc => simp [h1] at hc
    · exact ⟨h1, h2, h3, h4, h5, h6, h7⟩
  | receive =>
    simp only [step]
    split
    · next hm hh => simp [h2] at hh
    · exact ⟨h1, h2, h3, h4, h5, h6, h7⟩
  | ret o =>
    simp only [step]
    split
    · next hm => rcases h7 with h7 | h7 <;> simp [h7] at hm
    · exact ⟨h1, h2, h3, h4, h5, h6, h7⟩

theorem quiet_run (config : Config) (diag : Int) (events : List Event) (s : State)
    (he : signalFree events = true) (h : Quiet diag s) : Quiet diag (run config s events) := by
  induction events generalizing s with
  | nil => exact h
  | cons e es ih =>
    have h1 : signalFree [e] = true ∧ signalFree es = true := by
      simpa [signalFree] using he
    exact ih _ h1.2 (quiet_step config diag s e h1.1 h)

/-- The main routine never goes back into `child.Run()`. -/
theorem waiting_stays (config : Config) (events : List Event) (s : State)
    (h : s.main ≠ MainPc.inRun) : (run config s events).main ≠ MainPc.inRun := by
  induction events generalizing s with
  | nil => exact h
  | cons e es ih =>
    refine ih (step config s e) ?_
    cases e with
    | signal sig => simp only [step]; split <;> exact h
    | childDone r => simp only [step]; exact h
    | handle o => simp only [step]; split <;> exact h
    | receive => simp only [step]; first | exact h | (split <;> simp_all)
    | ret o => simp only [step]; first | exact h | (split <;> simp_all)


/-! ## The CSV writer and reader -/


/-! ### Splitting at a byte -/

theorem cut_of_split (c : Char) (pre post : List Char) (h : c ∉ pre) :
    cut c (pre ++ c :: post) = some (pre, post) := by
  induction pre with
  | nil => simp [cut]
  | cons x pre ih =>
    have hx : x ≠ c := fun e => h (by simp [e])
    have hp : c ∉ pre := fun e => h (by simp [e])
    simp [cut, hx, ih hp]

theorem cut_none (c : Char) (l : List Char) (h : c ∉ l) : cut c l = none := by
  induction l with
  | nil => rfl
  | cons x l ih =>
    have hx : x ≠ c := fun e => h (by simp [e])
    have hp : c ∉ l := fun e => h (by simp [e])
    simp [cut, hx, ih hp]

theorem cut_some (c : Char) (l pre post : List Char) (h : cut c l = some (pre, post)) :
    l = pre ++ c :: post ∧ c ∉ pre := by
  induction l generalizing pre with
  | nil => simp [cut] at h
  | cons x l ih =>
    by_cases hx : x = c
    · simp [cut, hx] at h
      obtain ⟨h1, h2⟩ := h
      subst h1 h2
      simp [hx]
    · simp [cut, hx] at h
      obtain ⟨a, hab, h1⟩ := h
      subst h1
      obtain ⟨e1, e2⟩ := ih a hab
      refine ⟨by simp [e1], ?_⟩
      simp [e2]
      exact fun e => hx e.symm

theorem cut_eq_none (c : Char) (l : List Char) (h : cut c l = none) : c ∉ l := by
  induction l with
  | nil => simp
  | cons x l ih =>
    by_cases hx : x = c
    · simp [cut, hx] at h
    · simp [cut, hx] at h
      simp [ih h]
      exact fun e => hx e.symm

/-! ### Lines -/

theorem endsLine_ne_nil (line : List Char) (h : EndsLine line) : line ≠ [] := by
  obtain ⟨pre, rfl, -⟩ := h
  simp

theorem endsLine_tail (x : Char) (l : List Char) (hx : x ≠ '\n') (h : EndsLine (x :: l)) :
    EndsLine l := by
  obtain ⟨pre, e, hn⟩ := h
  cases pre with
  | nil => simp at e; exact absurd e.1 hx
  | cons y pre =>
    simp at e
    exact ⟨pre, e.2, fun m => hn (by simp [m])⟩

theorem endsLine_newline (l : List Char) (h : EndsLine ('\n' :: l)) : l = [] := by
  obtain ⟨pre, e, hn⟩ := h
  cases pre with
  | nil => simpa using e
  | cons y pre =>
    simp at e
    exact absurd (List.mem_cons.2 (Or.inl e.1)) hn


theorem endsLine_lengthNL (l : List Char) (h : EndsLine l) : lengthNL l = 1 := by
  obtain ⟨pre, rfl, -⟩ := h
  simp [lengthNL]

/-- A line that starts a text starts with every newline-free start of it. -/
theorem endsLine_split (a b line rest : List Char) (h : line ++ rest = a ++ b)
    (hl : EndsLine line) (ha : '\n' ∉ a) :
    ∃ line1, line = a ++ line1 ∧ line1 ++ rest = b ∧ EndsLine line1 := by
  induction a generalizing line with
  | nil => exact ⟨line, rfl, by simpa using h, hl⟩
  | cons x a ih =>
    cases line with
    | nil => exact absurd rfl (endsLine_ne_nil _ hl)
    | cons y line =>
      simp at h
      obtain ⟨rfl, h⟩ := h
      have hy : y ≠ '\n' := fun e => ha (by simp [e])
      obtain ⟨line1, e1, e2, e3⟩ := ih line h (endsLine_tail y line hy hl)
        (fun m => ha (by simp [m]))
      exact ⟨line1, by simp [e1], e2, e3⟩

theorem hasCRLF_append_right (a b : List Char) (h : hasCRLF (a ++ b) = false) :
    hasCRLF b = false := by
  induction a with
  | nil => simpa using h
  | cons x a ih =>
    simp [hasCRLF] at h
    exact ih h.2

theorem readSlice_newline (pre post : List Char) (h : '\n' ∉ pre) :
    readSlice (pre ++ '\n' :: post) = (pre ++ ['\n'], post, false) := by
  induction pre with
  | nil => simp [readSlice]
  | cons x pre ih =>
    have hx : x ≠ '\n' := fun e => h (by simp [e])
    have hp : '\n' ∉ pre := fun e => h (by simp [e])
    simp [readSlice, hx, ih hp]

theorem hasCRLF_snoc (pre post : List Char) (h : hasCRLF (pre ++ '\n' :: post) = false) :
    pre.getLast? ≠ some '\r' := by
  induction pre with
  | nil => simp
  | cons x pre ih =>
    simp [hasCRLF] at h
    cases pre with
    | nil =>
      simp at h ⊢
      exact h.1
    | cons y pre =>
      rw [List.getLast?_cons_cons]
      exact ih h.2

theorem exists_first_line (t : List Char) (h : '\n' ∈ t) :
    ∃ pre post, t = pre ++ '\n' :: post ∧ '\n' ∉ pre := by
  induction t with
  | nil => simp at h
  | cons x t ih =>
    by_cases hx : x = '\n'
    · exact ⟨[], t, by simp [hx], by simp⟩
    · have : '\n' ∈ t := by
        rcases List.mem_cons.1 h with e | e
        · exact absurd e.symm hx
        · exact e
      obtain ⟨pre, post, e, hn⟩ := ih this
      refine ⟨x :: pre, post, by simp [e], ?_⟩
      simp [hn]
      exact fun e => hx e.symm

/-- On a text with a line end and without `\r\n`, `readLine` returns the
first line unchanged. -/
theorem readLine_plain (t : List Char) (hn : '\n' ∈ t) (hc : hasCRLF t = false) :
    ∃ line rest, readLine t = (line, rest, false) ∧ line ++ rest = t ∧ EndsLine line := by
  obtain ⟨pre, post, e, hp⟩ := exists_first_line t hn
  subst e
  refine ⟨pre ++ ['\n'], post, ?_, by simp, ⟨pre, rfl, hp⟩⟩
  have hr := hasCRLF_snoc pre post hc
  unfold readLine
  rw [readSlice_newline pre post hp]
  simp
  intro h2 h3
  exfalso
  rcases List.eq_nil_or_concat pre with e | ⟨p, c, e⟩
  · subst e; simp at h2
  · subst e
    have hd : List.drop (p ++ [c]).length.pred (p ++ [c] ++ ['\n']) = [c, '\n'] := by
      simp
    simp only [Nat.pred_eq_sub_one] at hd
    simp only [List.concat_eq_append] at h3 hr
    rw [hd] at h3
    simp at h3 hr
    exact hr h3

theorem endsLine_append_right (a b : List Char) (hb : b ≠ []) (h : EndsLine (a ++ b)) :
    EndsLine b := by
  obtain ⟨p, e, hn⟩ := h
  rcases List.eq_nil_or_concat b with e1 | ⟨b1, c, e1⟩
  · exact absurd e1 hb
  · subst e1
    simp only [List.concat_eq_append, ← List.append_assoc] at e
    obtain ⟨e2, e3⟩ := List.append_inj' e rfl
    simp at e3
    subst e3 e2
    exact ⟨b1, by simp, fun m => hn (by simp [m])⟩


/-! ### Quoted fields -/

theorem quoteBody_found (pre : List Char) :
    ∀ (f X K : List Char), pre ++ '"' :: X = quoteBody f ++ '"' :: K → '"' ∉ pre →
      (f = pre ∧ X = K) ∨ (∃ f2, f = pre ++ '"' :: f2 ∧ X = '"' :: (quoteBody f2 ++ '"' :: K)) := by
  induction pre with
  | nil =>
    intro f X K h _
    cases f with
    | nil => left; simpa [quoteBody] using h
    | cons c f1 =>
      by_cases hc : c = '"'
      · right
        subst hc
        refine ⟨f1, rfl, ?_⟩
        simpa [quoteBody] using h
      · simp [quoteBody, hc] at h
        exact absurd h.1.symm hc
  | cons x pre ih =>
    intro f X K h hq
    have hx : x ≠ '"' := fun e => hq (by simp [e])
    have hp : '"' ∉ pre := fun e => hq (by simp [e])
    cases f with
    | nil =>
      simp [quoteBody] at h
      exact absurd h.1 hx
    | cons c f1 =>
      by_cases hc : c = '"'
      · simp [quoteBody, hc] at h
        exact absurd h.1 hx
      · simp [quoteBody, hc] at h
        obtain ⟨rfl, h⟩ := h
        rcases ih f1 X K h hp with ⟨e1, e2⟩ | ⟨f2, e1, e2⟩
        · left; exact ⟨by simp [e1], e2⟩
        · right; exact ⟨f2, by simp [e1], e2⟩

theorem quoteBody_line (L : List Char) :
    ∀ (f rest K : List Char), L ++ rest = quoteBody f ++ '"' :: K → '"' ∉ L →
      ∃ f2, f = L ++ f2 ∧ rest = quoteBody f2 ++ '"' :: K := by
  induction L with
  | nil => intro f rest K h _; exact ⟨f, rfl, by simpa using h⟩
  | cons x L ih =>
    intro f rest K h hq
    have hx : x ≠ '"' := fun e => hq (by simp [e])
    have hp : '"' ∉ L := fun e => hq (by simp [e])
    cases f with
    | nil =>
      simp [quoteBody] at h
      exact absurd h.1 hx
    | cons c f1 =>
      by_cases hc : c = '"'
      · simp [quoteBody, hc] at h
        exact absurd h.1 hx
      · simp [quoteBody, hc] at h
        obtain ⟨rfl, h⟩ := h
        obtain ⟨f2, e1, e2⟩ := ih f1 rest K h hp
        exact ⟨f2, by simp [e1], e2⟩

theorem mem_append_quote (a K : List Char) (h : '\n' ∈ K) : '\n' ∈ a ++ '"' :: K := by
  simp [h]

/-- The quoted-field loop reads back a field written by `quoteBody`. -/
theorem quotedField_spec (fuel : Nat) :
    ∀ (f K line rest buf : List Char), line ++ rest = quoteBody f ++ '"' :: K →
      EndsLine line → hasCRLF (line ++ rest) = false → '\n' ∈ K →
      line.length + rest.length < fuel →
      (∀ t, K = ',' :: t → ∃ line1 rest1,
          quotedField fuel line rest buf = .ok (buf ++ f, some line1, rest1) ∧
          line1 ++ rest1 = t ∧ EndsLine line1) ∧
      (K = ['\n'] → quotedField fuel line rest buf = .ok (buf ++ f, none, [])) := by
  induction fuel with
  | zero => intro f K line rest buf _ _ _ _ h; omega
  | succ fuel ih =>
    intro f K line rest buf htext hline hcr hK hfuel
    cases hcut : cut '"' line with
    | none =>
      have hq := cut_eq_none _ _ hcut
      obtain ⟨f2, e1, e2⟩ := quoteBody_line line f rest K htext hq
      have hpos : 0 < line.length := List.length_pos.2 (endsLine_ne_nil _ hline)
      have hcr2 : hasCRLF rest = false := hasCRLF_append_right _ _ hcr
      have hn2 : '\n' ∈ rest := by rw [e2]; exact mem_append_quote _ _ hK
      obtain ⟨line1, rest1, hr, hsplit, hl1⟩ := readLine_plain rest hn2 hcr2
      have hlen : line1.length + rest1.length < fuel := by
        have : (line1 ++ rest1).length = rest.length := by rw [hsplit]
        simp at this
        omega
      have := ih f2 K line1 rest1 (buf ++ line) (by rw [hsplit, e2]) hl1
        (by rw [hsplit]; exact hcr2) hK hlen
      simp only [quotedField, hcut, hpos, if_true, hr]
      subst e1
      simpa [List.append_assoc] using this
    | some p =>
      obtain ⟨pre, post⟩ := p
      obtain ⟨e, hq⟩ := cut_some _ _ _ _ hcut
      subst e
      have hl2 : EndsLine ('"' :: post) := endsLine_append_right pre _ (by simp) hline
      have hl3 : EndsLine post := endsLine_tail _ _ (by decide) hl2
      cases post with
      | nil => exact absurd rfl (endsLine_ne_nil _ hl3)
      | cons c post1 =>
        have htext2 : pre ++ '"' :: (c :: post1 ++ rest) = quoteBody f ++ '"' :: K := by
          simpa [List.append_assoc] using htext
        rcases quoteBody_found pre f _ K htext2 hq with ⟨e1, e2⟩ | ⟨f2, e1, e2⟩
        · subst e1
          constructor
          · intro t ht
            rw [ht] at e2
            simp at e2
            obtain ⟨rfl, e2⟩ := e2
            refine ⟨post1, rest, ?_, e2, endsLine_tail _ _ (by decide) hl3⟩
            simp [quotedField, hcut]
          · intro ht
            rw [ht] at e2
            simp at e2
            obtain ⟨rfl, e2, e3⟩ := e2
            subst e2 e3
            simp [quotedField, hcut, lengthNL]
        · simp at e2
          obtain ⟨rfl, e2⟩ := e2
          have hcr2 : hasCRLF (post1 ++ rest) = false := by
            have : pre ++ '"' :: '"' :: post1 ++ rest = (pre ++ ['"', '"']) ++ (post1 ++ rest) := by
              simp
            rw [this] at hcr
            exact hasCRLF_append_right _ _ hcr
          have hlen : post1.length + rest.length < fuel := by
            simp at hfuel
            omega
          have hl4 : EndsLine post1 := endsLine_tail _ _ (by decide) hl3
          have := ih f2 K post1 rest (buf ++ pre ++ ['"']) e2 hl4 hcr2 hK hlen
          simp only [quotedField, hcut, if_true]
          subst e1
          simpa [List.append_assoc] using this



/-! ### Records -/

theorem unquoted_not_special (f : List Char) (h : fieldNeedsQuotes f = false) :
    ∀ c ∈ f, isSpecial c = false := by
  cases f with
  | nil => simp
  | cons r1 f1 =>
    unfold fieldNeedsQuotes at h
    simp only at h
    split at h
    · simp at h
    · split at h
      · simp at h
      · next _ h2 =>
        intro c hc
        simp only [List.any_eq_true, not_exists, not_and] at h2
        simpa using h2 c hc

theorem isSpecial_chars (c : Char) (h : isSpecial c = false) :
    c ≠ '\n' ∧ c ≠ '\r' ∧ c ≠ '"' ∧ c ≠ ',' := by
  simp [isSpecial, not_or] at h
  exact ⟨h.1.1.1, h.1.1.2, h.1.2, h.2⟩

theorem unquoted_free (f : List Char) (h : fieldNeedsQuotes f = false) :
    '\n' ∉ f ∧ '\r' ∉ f ∧ '"' ∉ f ∧ ',' ∉ f := by
  have hs := unquoted_not_special f h
  refine ⟨?_, ?_, ?_, ?_⟩ <;> intro hm
  · exact (isSpecial_chars _ (hs _ hm)).1 rfl
  · exact (isSpecial_chars _ (hs _ hm)).2.1 rfl
  · exact (isSpecial_chars _ (hs _ hm)).2.2.1 rfl
  · exact (isSpecial_chars _ (hs _ hm)).2.2.2 rfl

theorem writeField_quoted (f : List Char) (h : fieldNeedsQuotes f = true) :
    writeField f = '"' :: (quoteBody f ++ ['"']) := by
  simp [writeField, h]

theorem writeField_plain (f : List Char) (h : fieldNeedsQuotes f = false) :
    writeField f = f := by
  simp [writeField, h]

/-- The field loop reads back the fields of a record written by `Write`. -/
theorem parseFields_spec (fs : List (List Char)) :
    ∀ (fuel : Nat) (line rest : List Char) (acc : List (List Char)), fs ≠ [] →
      line ++ rest = writeFields fs ++ ['\n'] → EndsLine line →
      hasCRLF (line ++ rest) = false → fs.length ≤ fuel →
      parseFields fuel line rest acc = .ok (acc ++ fs, []) := by
  induction fs with
  | nil => intro _ _ _ _ h; exact absurd rfl h
  | cons f tl ih =>
    intro fuel line rest acc _ htext hline hcr hfuel
    obtain ⟨fuel1, rfl⟩ : ∃ k, fuel = k + 1 := ⟨fuel - 1, by simp at hfuel; omega⟩
    cases hq : fieldNeedsQuotes f with
    | true =>
      have hK : ∀ K, line ++ rest = writeField f ++ K →
          ∃ line1, line = '"' :: line1 ∧ line1 ++ rest = quoteBody f ++ '"' :: K ∧
            EndsLine line1 ∧ hasCRLF (line1 ++ rest) = false := by
        intro K hk
        rw [writeField_quoted f hq] at hk
        have hk2 : line ++ rest = ['"'] ++ (quoteBody f ++ '"' :: K) := by
          simpa [List.append_assoc] using hk
        obtain ⟨line1, e1, e2, e3⟩ := endsLine_split ['"'] _ line rest hk2 hline (by decide)
        refine ⟨line1, by simpa using e1, e2, e3, ?_⟩
        rw [e1, List.append_assoc] at hcr
        exact hasCRLF_append_right _ _ hcr
      cases tl with
      | nil =>
        obtain ⟨line1, e1, e2, e3, e4⟩ := hK ['\n'] (by simpa [writeFields] using htext)
        subst e1
        have hlen : line1.length + rest.length < ('"' :: line1).length + rest.length + 1 := by
          simp; omega
        have hq2 := (quotedField_spec _ f ['\n'] line1 rest [] e2 e3 e4 (by simp) hlen).2 rfl
        rw [parseFields, if_neg (by simp)]
        simp only [List.tail_cons, hq2]
        simp
      | cons g tl1 =>
        obtain ⟨line1, e1, e2, e3, e4⟩ := hK (',' :: (writeFields (g :: tl1) ++ ['\n']))
          (by simpa [writeFields, List.append_assoc] using htext)
        subst e1
        have hlen : line1.length + rest.length < ('"' :: line1).length + rest.length + 1 := by
          simp; omega
        obtain ⟨line2, rest2, hq2, e5, e6⟩ :=
          (quotedField_spec _ f _ line1 rest [] e2 e3 e4 (by simp) hlen).1 _ rfl
        have hcr2 : hasCRLF (line2 ++ rest2) = false := by
          rw [e2] at e4
          have : quoteBody f ++ '"' :: ',' :: (writeFields (g :: tl1) ++ ['\n'])
              = (quoteBody f ++ ['"', ',']) ++ (line2 ++ rest2) := by
            simp [e5]
          rw [this] at e4
          exact hasCRLF_append_right _ _ e4
        have := ih fuel1 line2 rest2 (acc ++ [f]) (by simp) e5 e6 hcr2
          (by simp at hfuel ⊢; omega)
        rw [parseFields, if_neg (by simp)]
        simp only [List.tail_cons, hq2]
        simpa [List.append_assoc] using this
    | false =>
      obtain ⟨hn, -, hqt, hcm⟩ := unquoted_free f hq
      cases tl with
      | nil =>
        simp only [writeFields, writeField_plain f hq] at htext
        obtain ⟨line1, e1, e2, e3⟩ := endsLine_split f ['\n'] line rest htext hline hn
        obtain ⟨c, l1, rfl⟩ := List.exists_cons_of_ne_nil (endsLine_ne_nil _ e3)
        simp at e2
        obtain ⟨rfl, rfl, rfl⟩ := e2
        subst e1
        have hhead : (f ++ ['\n']).head? ≠ some '"' := by
          cases f with
          | nil => simp
          | cons a f1 =>
            simp
            exact fun e => hqt (by simp [e])
        have hcut : cut ',' (f ++ ['\n']) = none := by
          apply cut_none
          simp [hcm]
        rw [parseFields, if_pos hhead]
        simp only [hcut]
        simp [lengthNL, hqt]
      | cons g tl1 =>
        simp only [writeFields, writeField_plain f hq] at htext
        have htext2 : line ++ rest = (f ++ [',']) ++ (writeFields (g :: tl1) ++ ['\n']) := by
          simpa [List.append_assoc] using htext
        obtain ⟨line1, e1, e2, e3⟩ := endsLine_split (f ++ [',']) _ line rest htext2 hline
          (by simp [hn])
        subst e1
        have hhead : (f ++ [','] ++ line1).head? ≠ some '"' := by
          cases f with
          | nil => simp
          | cons a f1 =>
            simp
            exact fun e => hqt (by simp [e])
        have hcut : cut ',' (f ++ [','] ++ line1) = some (f, line1) := by
          have := cut_of_split ',' f line1 hcm
          simpa [List.append_assoc] using this
        have hcr2 : hasCRLF (line1 ++ rest) = false := by
          rw [List.append_assoc] at hcr
          exact hasCRLF_append_right _ _ hcr
        have := ih fuel1 line1 rest (acc ++ [f]) (by simp) e2 e3 hcr2 (by simp at hfuel ⊢; omega)
        rw [parseFields, if_pos hhead]
        simp only [hcut]
        simpa [hqt, List.append_assoc] using this



theorem hasCRLF_append (a b : List Char) :
    hasCRLF (a ++ b) =
      (hasCRLF a || hasCRLF b || (a.getLast? == some '\r' && b.head? == some '\n')) := by
  induction a with
  | nil => simp [hasCRLF]
  | cons x a ih =>
    cases a with
    | nil =>
      cases b with
      | nil => simp [hasCRLF]
      | cons y b => simp [hasCRLF, Bool.or_comm]
    | cons y a =>
      simp only [List.cons_append] at ih ⊢
      rw [hasCRLF, ih, List.getLast?_cons_cons]
      simp [hasCRLF, Bool.or_assoc]

theorem hasCRLF_quoteBody (f : List Char) : hasCRLF (quoteBody f) = hasCRLF f := by
  induction f with
  | nil => rfl
  | cons c f ih =>
    by_cases hc : c = '"'
    · subst hc
      simp [quoteBody, hasCRLF, ih]
    · have hh : ((quoteBody f).head? == some '\n') = (f.head? == some '\n') := by
        cases f with
        | nil => rfl
        | cons d f1 =>
          by_cases hd : d = '"'
          · subst hd; simp [quoteBody]
          · simp [quoteBody, hd]
      simp [quoteBody, hc, hasCRLF, ih, hh]

theorem hasCRLF_writeField (f : List Char) (h : hasCRLF f = false) :
    hasCRLF (writeField f) = false ∧ (writeField f).getLast? ≠ some '\r' := by
  cases hq : fieldNeedsQuotes f with
  | true =>
    rw [writeField_quoted f hq]
    constructor
    · have : '"' :: (quoteBody f ++ ['"']) = ['"'] ++ (quoteBody f ++ ['"']) := rfl
      rw [this, hasCRLF_append, hasCRLF_append, hasCRLF_quoteBody, h]
      simp [hasCRLF]
    · have : '"' :: (quoteBody f ++ ['"']) = ('"' :: quoteBody f) ++ ['"'] := rfl
      rw [this, List.getLast?_append]
      simp
  | false =>
    rw [writeField_plain f hq]
    refine ⟨h, ?_⟩
    intro hl
    exact (unquoted_free f hq).2.1 (List.mem_of_getLast?_eq_some hl)

/-- A record written from fields without `\r\n` holds no `\r\n`: a field with
`\r` is quoted and so ends in a quote. -/
theorem hasCRLF_write (fs : List (List Char)) (h : ∀ f ∈ fs, hasCRLF f = false) :
    hasCRLF (writeFields fs ++ ['\n']) = false := by
  induction fs with
  | nil => simp [writeFields, hasCRLF]
  | cons f tl ih =>
    obtain ⟨h1, h2⟩ := hasCRLF_writeField f (h f (by simp))
    cases tl with
    | nil =>
      rw [writeFields, hasCRLF_append, h1]
      simp [hasCRLF]
      exact fun e => absurd e h2
    | cons g tl1 =>
      have := ih (fun x hx => h x (by simp [hx]))
      rw [writeFields, List.append_assoc, hasCRLF_append, h1]
      have e : ',' :: writeFields (g :: tl1) ++ ['\n'] = [','] ++ (writeFields (g :: tl1) ++ ['\n']) := rfl
      rw [e, hasCRLF_append, this]
      simp [hasCRLF]




theorem length_writeFields (fs : List (List Char)) : fs.length ≤ (writeFields fs).length + 1 := by
  induction fs with
  | nil => simp
  | cons f tl ih =>
    cases tl with
    | nil => simp
    | cons g tl1 =>
      simp only [writeFields, List.length_append, List.length_cons] at ih ⊢
      omega

theorem writeFields_head (fs : List (List Char)) (h1 : fs ≠ []) (h2 : fs ≠ [[]]) :
    ∃ c w, writeFields fs = c :: w ∧ c ≠ '\n' := by
  cases fs with
  | nil => exact absurd rfl h1
  | cons f tl =>
    cases hq : fieldNeedsQuotes f with
    | true =>
      cases tl with
      | nil => exact ⟨'"', _, by rw [writeFields, writeField_quoted f hq], by decide⟩
      | cons g tl1 =>
        exact ⟨'"', _, by rw [writeFields, writeField_quoted f hq]; rfl, by decide⟩
    | false =>
      cases f with
      | nil =>
        cases tl with
        | nil => exact absurd rfl h2
        | cons g tl1 =>
          exact ⟨',', _, by rw [writeFields, writeField_plain _ hq]; rfl, by decide⟩
      | cons c f1 =>
        have hc : c ≠ '\n' := fun e => (unquoted_free _ hq).1 (by simp [e])
        cases tl with
        | nil => exact ⟨c, _, by rw [writeFields, writeField_plain _ hq], hc⟩
        | cons g tl1 => exact ⟨c, _, by rw [writeFields, writeField_plain _ hq]; rfl, hc⟩

/-- Reading what `Write` wrote for one record gives that record back. -/
theorem readAllLoop_write (fs : List (List Char)) (h1 : fs ≠ []) (h2 : fs ≠ [[]])
    (h3 : ∀ f ∈ fs, hasCRLF f = false) :
    readAllLoop ((Write fs).length + 1) (Write fs) 0 [] = .ok [fs] := by
  have hcr : hasCRLF (Write fs) = false := hasCRLF_write fs h3
  have hnl : '\n' ∈ Write fs := by simp [Write]
  obtain ⟨line, rest, hr, hsplit, hline⟩ := readLine_plain (Write fs) hnl hcr
  obtain ⟨c, w, hw, hc⟩ := writeFields_head fs h1 h2
  -- the first line is not empty
  have hlen : line.length ≠ lengthNL line := by
    rw [endsLine_lengthNL line hline]
    have e : line ++ rest = [c] ++ (w ++ ['\n']) := by rw [hsplit, Write, hw]; rfl
    obtain ⟨line1, e1, -, e3⟩ := endsLine_split [c] _ line rest e hline (by simp; exact fun e => hc e.symm)
    have := List.length_pos.2 (endsLine_ne_nil _ e3)
    rw [e1]
    simp only [List.length_append, List.length_singleton]
    omega
  have hnext : nextLine ((Write fs).length + 1) (Write fs) = .ok (line, rest, false) := by
    rw [nextLine]
    simp only [hr]
    rw [if_neg (by simp [hlen])]
  have hparse : parseFields (line.length + rest.length + 1) line rest [] = .ok (fs, []) := by
    have := parseFields_spec fs (line.length + rest.length + 1) line rest [] h1
      (by rw [hsplit]; rfl) hline (by rw [hsplit]; exact hcr)
      (by
        have h := length_writeFields fs
        have : (line ++ rest).length = (Write fs).length := by rw [hsplit]
        simp [Write] at this
        omega)
    simpa using this
  have hrec : readRecord (Write fs) = .ok (some fs, []) := by
    simp only [readRecord, hnext]
    simp [hparse]
  have hend : readRecord [] = .ok (none, []) := by
    simp [readRecord, nextLine, readLine, readSlice, lengthNL]
  obtain ⟨k, hk⟩ : ∃ k, (Write fs).length = k + 1 := ⟨(writeFields fs).length, by simp [Write]⟩
  rw [hk, readAllLoop]
  simp only [hrec]
  rw [if_neg (by simp), readAllLoop]
  simp [hend]

theorem writeAll_single (tokens : List String) :
    (WriteAll [tokens]).data = Write (tokens.map String.data) := by
  simp [WriteAll]

/-- Reading back the record `WriteAll` wrote. -/
theorem readAll_writeAll (tokens : List String) (h1 : tokens ≠ []) (h2 : tokens ≠ [""])
    (h3 : ∀ t ∈ tokens, hasCRLF t.data = false) :
    ReadAll (WriteAll [tokens]) = .ok [tokens] := by
  have e1 : tokens.map String.data ≠ [] := by simpa using h1
  have e2 : tokens.map String.data ≠ [[]] := by
    intro e
    apply h2
    cases tokens with
    | nil => simp at e
    | cons t tl =>
      simp at e
      obtain ⟨e3, e4⟩ := e
      subst e4
      have : t = "" := by
        apply String.ext
        simpa using e3
      rw [this]
  have e3 : ∀ f ∈ tokens.map String.data, hasCRLF f = false := by
    intro f hf
    obtain ⟨t, ht, rfl⟩ := List.mem_map.1 hf
    exact h3 t ht
  have := readAllLoop_write _ e1 e2 e3
  rw [ReadAll, writeAll_single, this]
  simp [Function.comp_def]




/-! ## Attributes -/

theorem get_set_same (m : Attrs) (k v : String) : (m.set k v).get k = some v := by
  simp [Attrs.get, Attrs.set]

theorem find_filter_other (m : Attrs) (k k1 : String) (h : k1 ≠ k) :
    (m.filter (fun p => !(p.1 == k))).find? (fun p => p.1 == k1) =
      m.find? (fun p => p.1 == k1) := by
  induction m with
  | nil => rfl
  | cons p m ih =>
    by_cases hp : p.1 = k
    · have hq : p.1 ≠ k1 := fun e => h (e.symm.trans hp)
      rw [List.filter_cons_of_neg (by simp [hp]), List.find?_cons_of_neg _ (by simp [hq])]
      exact ih
    · rw [List.filter_cons_of_pos (by simp [hp])]
      by_cases hq : p.1 = k1
      · rw [List.find?_cons_of_pos _ (by simp [hq]), List.find?_cons_of_pos _ (by simp [hq])]
      · rw [List.find?_cons_of_neg _ (by simp [hq]), List.find?_cons_of_neg _ (by simp [hq])]
        exact ih

theorem get_set_other (m : Attrs) (k k1 v : String) (h : k1 ≠ k) :
    (m.set k v).get k1 = m.get k1 := by
  unfold Attrs.get Attrs.set
  rw [List.find?_cons_of_neg _ (by simpa using fun e => h e.symm), find_filter_other m k k1 h]

theorem writeFields_intercalate (fs : List (List Char)) :
    writeFields fs = List.intercalate [','] (fs.map writeField) := by
  induction fs with
  | nil => rfl
  | cons f tl ih =>
    cases tl with
    | nil => simp [writeFields, List.intercalate]
    | cons g tl1 =>
      rw [writeFields, ih]
      simp [List.intercalate, List.intersperse]

theorem setAttributes_cons (config : Config) (arg0 : String) (rest : List String) :
    ∃ c, setAttributes config (arg0 :: rest) = some c ∧
      c.isRecording = config.isRecording ∧
      c.traceparentIgnoreEnv = config.traceparentIgnoreEnv ∧
      c.inbound = config.inbound ∧
      c.attributes.get "command" = some arg0 ∧
      c.attributes.get "arguments" = some (if rest = [] then "" else WriteAll [rest]) := by
  refine ⟨_, rfl, rfl, rfl, rfl, ?_, ?_⟩
  · cases rest with
    | nil =>
      simp only [List.length_singleton, gt_iff_lt, Nat.lt_irrefl, if_false]
      rw [get_set_other _ _ _ _ (by decide), get_set_same]
    | cons a rest =>
      simp only [List.length_cons, gt_iff_lt]
      rw [if_pos (by omega), get_set_other _ _ _ _ (by decide),
        get_set_other _ _ _ _ (by decide), get_set_same]
  · cases rest with
    | nil =>
      simp only [List.length_singleton, gt_iff_lt, Nat.lt_irrefl, if_false]
      rw [get_set_same]
      simp
    | cons a rest =>
      simp only [List.length_cons, gt_iff_lt]
      rw [if_pos (by omega), get_set_same]
      simp

theorem prepare_spec (encode : Traceparent → String) (config : Config) (traceId spanId : String)
    (environ : List String) (arg0 : String) (rest : List String) :
    ∃ l, prepare encode config traceId spanId environ (arg0 :: rest) = some l ∧
      l.config.isRecording = config.isRecording ∧
      l.config.traceparentIgnoreEnv = config.traceparentIgnoreEnv ∧
      l.config.inbound = config.inbound ∧
      l.config.attributes.get "command" = some arg0 ∧
      l.config.attributes.get "arguments" = some (if rest = [] then "" else WriteAll [rest]) ∧
      l.span = NewProtobufSpan l.config traceId spanId ∧
      l.env = childEnv encode l.config l.span environ := by
  obtain ⟨c, hc, h1, h2, h3, h4, h5⟩ := setAttributes_cons config arg0 rest
  exact ⟨{ config := c, span := NewProtobufSpan c traceId spanId, path := arg0, argv := rest,
           env := childEnv encode c (NewProtobufSpan c traceId spanId) environ },
    by simp only [prepare, hc, List.headD_cons, List.tail_cons], h1, h2, h3, h4, h5, rfl, rfl⟩

theorem doExec_spec (encode : Traceparent → String) (config : Config) (traceId spanId : String)
    (environ : List String) (arg0 : String) (rest : List String) (diag : Int)
    (events : List Event) :
    ∃ c, c.isRecording = config.isRecording ∧
      c.traceparentIgnoreEnv = config.traceparentIgnoreEnv ∧ c.inbound = config.inbound ∧
      doExec encode config traceId spanId environ (arg0 :: rest) diag events =
        some (run c (initial (NewProtobufSpan c traceId spanId) diag) events) := by
  obtain ⟨l, hl, h1, h2, h3, -, -, h6, -⟩ :=
    prepare_spec encode config traceId spanId environ arg0 rest
  refine ⟨l.config, h1, h2, h3, ?_⟩
  simp only [doExec, hl, Option.map_some', reach, h6]





/-! ## The claims -/

/-- C4: for every inherited environment, every configuration and every
argument list with a command, the environment `doExec` builds for the child
holds at most one entry that starts with `TRACEPARENT=`. -/
theorem child_env_at_most_one_traceparent (encode : Traceparent → String) (config : Config)
    (traceId spanId : String) (environ : List String) (arg0 : String) (rest : List String) :
    ∃ l, prepare encode config traceId spanId environ (arg0 :: rest) = some l ∧
      l.env.countP (fun e => HasPrefix e tpPrefix) ≤ 1 := by
  obtain ⟨l, hl, -, -, -, -, -, -, henv⟩ :=
    prepare_spec encode config traceId spanId environ arg0 rest
  refine ⟨l, hl, ?_⟩
  rw [henv, childEnv, List.countP_append, countP_stripEnv, Nat.zero_add]
  exact countP_entries_le encode l.config l.span

theorem contexts_all_inbound (config : Config) (events : List Event) (s : State)
    (hrec : config.isRecording = false) (hign : config.traceparentIgnoreEnv = false)
    (hinit : config.inbound.initialized = true)
    (h : ∀ tp ∈ traceContexts s, tp = config.inbound) :
    ∀ tp ∈ traceContexts (run config s events), tp = config.inbound := by
  induction events generalizing s with
  | nil => exact h
  | cons e es ih =>
    refine ih (step config s e) ?_
    simp only [traceContexts] at h ⊢
    cases e with
    | signal sig => simp only [step]; split <;> exact h
    | childDone r =>
      simp only [step]
      split
      · simpa [List.filterMap_append, Effect.context] using h
      · exact h
    | handle o =>
      simp only [step]
      split
      · intro tp htp
        simp only [finishSpan_context, PropagateTraceparent, hrec, hign, hinit] at htp
        rcases List.mem_append.1 htp with h1 | h1
        · exact h tp (by simpa [List.filterMap_append, Effect.context] using h1)
        · simpa using h1
      · exact h
    | receive =>
      simp only [step]
      split
      · simpa [List.filterMap_append, Effect.context] using h
      · exact h
    | ret o =>
      simp only [step]
      split
      · intro tp htp
        simp only [finishSpan_context, PropagateTraceparent, hrec, hign, hinit] at htp
        rcases List.mem_append.1 htp with h1 | h1
        · exact h tp (by simpa [List.filterMap_append, Effect.context] using h1)
        · simpa using h1
      · exact h

/-- C5: when the run does not record, the environment is not ignored and
the inbound trace context is initialized, the child's environment is the
inherited one without its `TRACEPARENT=` entries followed by the single
entry `TRACEPARENT=` ++ encoding of the inbound context, whatever the
identifiers of the span created for this run; every run of `finishSpan`
writes exactly the inbound context to standard output, and no other trace
context is written in any run. -/
theorem inbound_context_passed_unchanged (encode : Traceparent → String) (config : Config)
    (traceId spanId : String) (environ : List String) (arg0 : String) (rest : List String)
    (diag : Int) (events : List Event)
    (hrec : config.isRecording = false) (hign : config.traceparentIgnoreEnv = false)
    (hinit : config.inbound.initialized = true) :
    ∃ l, prepare encode config traceId spanId environ (arg0 :: rest) = some l ∧
      l.env = environ.filter (fun e => !HasPrefix e tpPrefix) ++
        [tpPrefix ++ encode config.inbound] ∧
      l.env.countP (fun e => HasPrefix e tpPrefix) = 1 ∧
      (∀ s o, traceContexts (finishSpan l.config s o) = traceContexts s ++ [config.inbound]) ∧
      (∀ tp ∈ traceContexts (reach l diag events), tp = config.inbound) := by
  obtain ⟨l, hl, h1, h2, h3, -, -, -, henv⟩ :=
    prepare_spec encode config traceId spanId environ arg0 rest
  rw [← h1] at hrec
  rw [← h2] at hign
  rw [← h3] at hinit ⊢
  have hentries : traceparentEntries encode l.config l.span =
      [tpPrefix ++ encode l.config.inbound] := by
    simp [traceparentEntries, hrec, hign, hinit, sprintfTraceparent]
  have henv2 : l.env = environ.filter (fun e => !HasPrefix e tpPrefix) ++
      [tpPrefix ++ encode l.config.inbound] := by
    rw [henv, childEnv, stripEnv_eq_filter, hentries]
  refine ⟨l, hl, henv2, ?_, ?_, ?_⟩
  · rw [henv, childEnv, List.countP_append, countP_stripEnv, hentries]
    have := hasPrefix_sprintf (encode l.config.inbound)
    simp only [sprintfTraceparent] at this
    simp [this]
  · intro s o
    rw [traceContexts, finishSpan_context]
    simp [traceContexts, PropagateTraceparent, hrec, hign, hinit]
  · exact contexts_all_inbound l.config events _ hrec hign hinit (by simp [traceContexts, initial])

/-- Witness of C5 on the sample environment. -/
theorem inbound_context_passed_unchanged_witness :
    ∃ l, prepare sampleEncode passingConfig "4bf92f35" "00f067aa" sampleEnviron
        ["echo", "hello"] = some l ∧
      l.env = ["PATH=/bin", "HOME=/root",
        "TRACEPARENT=00-0af7651916cd43dd8448eb211c80319c-b7ad6b7169203331-01"] ∧
      traceContexts (reach l 0 signalFirst) =
        [sampleInbound, sampleInbound] := by
  obtain ⟨l, hl, henv, -, -, -⟩ :=
    inbound_context_passed_unchanged sampleEncode passingConfig "4bf92f35" "00f067aa"
      sampleEnviron "echo" ["hello"] 0 signalFirst rfl rfl rfl
  have e : prepare sampleEncode passingConfig "4bf92f35" "00f067aa" sampleEnviron
      ["echo", "hello"] = some l := hl
  refine ⟨l, hl, ?_, ?_⟩
  · rw [henv]; decide
  · have h2 : (prepare sampleEncode passingConfig "4bf92f35" "00f067aa" sampleEnviron
        ["echo", "hello"]).map
          (fun l => traceContexts (reach l 0 signalFirst)) =
        some [sampleInbound, sampleInbound] := by decide
    rw [e] at h2
    simpa using h2

/-- C6: when the run does not record and either the environment is ignored
or the inbound trace context is not initialized, the child's environment is
exactly the inherited one without the entries that start with
`TRACEPARENT=`, in the inherited order, and holds no such entry. -/
theorem no_context_appended (encode : Traceparent → String) (config : Config)
    (traceId spanId : String) (environ : List String) (arg0 : String) (rest : List String)
    (hrec : config.isRecording = false)
    (h : config.traceparentIgnoreEnv = true ∨ config.inbound.initialized = false) :
    ∃ l, prepare encode config traceId spanId environ (arg0 :: rest) = some l ∧
      l.env = environ.filter (fun e => !HasPrefix e tpPrefix) ∧
      l.env.countP (fun e => HasPrefix e tpPrefix) = 0 := by
  obtain ⟨l, hl, h1, h2, h3, -, -, -, henv⟩ :=
    prepare_spec encode config traceId spanId environ arg0 rest
  rw [← h1] at hrec
  rw [← h2, ← h3] at h
  have hentries : traceparentEntries encode l.config l.span = [] := by
    rcases h with h | h <;> simp [traceparentEntries, hrec, h]
  have henv2 : l.env = stripEnv environ := by
    rw [henv, childEnv, hentries, List.append_nil]
  refine ⟨l, hl, ?_, ?_⟩
  · rw [henv2, stripEnv_eq_filter]
  · rw [henv2, countP_stripEnv]

/-- Witness of C6 on the sample environment, with the environment ignored. -/
theorem no_context_appended_witness :
    ∃ l, prepare sampleEncode ignoringConfig "4bf92f35" "00f067aa" sampleEnviron
        ["echo", "hello"] = some l ∧
      l.env = ["PATH=/bin", "HOME=/root"] := by
  obtain ⟨l, hl, henv, -⟩ :=
    no_context_appended sampleEncode ignoringConfig "4bf92f35" "00f067aa" sampleEnviron
      "echo" ["hello"] rfl (Or.inl rfl)
  exact ⟨l, hl, by rw [henv]; decide⟩




/-- C7, as the claim states it, fails for `exec echo hello`: the attribute
`arguments` is not `hello` but `hello` followed by a line feed, the record
terminator that `csv.Writer.WriteAll` writes after the row. -/
theorem arguments_echo_hello_has_newline :
    ∃ l, prepare sampleEncode recordingConfig "4bf92f35" "00f067aa" sampleEnviron
        ["echo", "hello"] = some l ∧
      l.config.attributes.get "command" = some "echo" ∧
      l.config.attributes.get "arguments" = some "hello\n" ∧
      l.config.attributes.get "arguments" ≠ some "hello" := by
  refine ⟨_, rfl, ?_, ?_, ?_⟩ <;> decide

/-- C7, amended: for every argument list with a command, when the span is
created the attribute `command` is `args[0]` and the attribute `arguments`
is the empty string when there are no further arguments, and otherwise the
CSV row of `args[1:]` (the written fields joined by commas) followed by one
line feed; the span is built from these attributes. -/
theorem attributes_command_and_csv_record (encode : Traceparent → String) (config : Config)
    (traceId spanId : String) (environ : List String) (arg0 : String) (rest : List String) :
    ∃ l, prepare encode config traceId spanId environ (arg0 :: rest) = some l ∧
      l.config.attributes.get "command" = some arg0 ∧
      l.config.attributes.get "arguments" =
        some (if rest = [] then ""
          else ⟨List.intercalate [','] (rest.map (fun a => writeField a.data)) ++ ['\n']⟩) ∧
      l.span.attributes = l.config.attributes := by
  obtain ⟨l, hl, -, -, -, h4, h5, h6, -⟩ :=
    prepare_spec encode config traceId spanId environ arg0 rest
  refine ⟨l, hl, h4, ?_, by rw [h6]; rfl⟩
  rw [h5]
  by_cases hr : rest = []
  · simp [hr]
  · simp only [hr, if_false]
    congr 1
    apply String.ext
    rw [writeAll_single, Write, writeFields_intercalate]
    simp [Function.comp_def]

theorem run_cons (config : Config) (s : State) (e : Event) (es : List Event) :
    run config s (e :: es) = run config (step config s e) es := rfl

theorem quiet_initial (span : Span) (diag : Int) : Quiet diag (initial span diag) := by
  simp [Quiet, initial]

theorem propagate_recording (config : Config) (span : Span) (h : config.isRecording = true) :
    (PropagateTraceparent config span).length = 1 := by
  simp [PropagateTraceparent, h]

/-- C1 fails on the code: in every run in which `doExec` returns,
`finishSpan` has run at least twice: the span was exported at least twice,
the exit code was recorded at least twice and, when recording, at least two
trace contexts were written to standard output. -/
theorem returned_after_two_finalizes (encode : Traceparent → String) (config : Config)
    (traceId spanId : String) (environ : List String) (arg0 : String) (rest : List String)
    (diag : Int) (events : List Event) :
    ∃ s, doExec encode config traceId spanId environ (arg0 :: rest) diag events = some s ∧
      (s.main = MainPc.returned →
        2 ≤ (exports s).length ∧ 2 ≤ (exitCodes s).length ∧
        (config.isRecording = true → 2 ≤ (traceContexts s).length)) := by
  obtain ⟨c, h1, -, -, hs⟩ :=
    doExec_spec encode config traceId spanId environ arg0 rest diag events
  refine ⟨_, hs, ?_⟩
  intro hm
  have hinv := inv_run c events _ (inv_initial (NewProtobufSpan c traceId spanId) diag rfl)
  have hctx := ctxInv_run c events (initial (NewProtobufSpan c traceId spanId) diag)
    (by simp [CtxInv, traceContexts, exports, initial])
  obtain ⟨e1, -, -, -, -, h6⟩ := hinv
  have h2 := (h6 hm).1
  refine ⟨h2, by omega, ?_⟩
  intro hrec
  rw [← h1] at hrec
  rw [CtxInv, propagate_recording c _ hrec] at hctx
  omega

/-- Witness of the C1 theorem: a signal handled while the child runs, then
the child's exit and the return of `doExec`: two runs of `finishSpan`. -/
theorem returned_after_two_finalizes_witness :
    ∃ s, doExec sampleEncode recordingConfig "4bf92f35" "00f067aa" sampleEnviron
        ["sleep", "5"] 0 signalFirst = some s ∧
      s.main = MainPc.returned ∧ 2 ≤ (exports s).length ∧ 2 ≤ (exitCodes s).length ∧
      2 ≤ (traceContexts s).length := by
  obtain ⟨s, hs, h⟩ := returned_after_two_finalizes sampleEncode recordingConfig "4bf92f35"
    "00f067aa" sampleEnviron "sleep" ["5"] 0 signalFirst
  have hm : s.main = MainPc.returned := by
    have e : (doExec sampleEncode recordingConfig "4bf92f35" "00f067aa" sampleEnviron
        ["sleep", "5"] 0 signalFirst).map (fun s => s.main) = some MainPc.returned := by
      decide
    rw [hs] at e
    simpa using e
  obtain ⟨h1, h2, h3⟩ := h hm
  exact ⟨s, hs, hm, h1, h2, h3 rfl⟩

theorem childDone_leaves_run (config : Config) (events : List Event) (s : State) (r : RunResult)
    (h : Event.childDone r ∈ events) : (run config s events).main ≠ MainPc.inRun := by
  induction events generalizing s with
  | nil => simp at h
  | cons e es ih =>
    rw [run_cons]
    rcases List.mem_cons.1 h with h1 | h1
    · subst h1
      apply waiting_stays
      by_cases hm : s.main = MainPc.inRun
      · simp [step, hm]
      · simpa [step] using hm
    · exact ih _ h1

/-- C2 fails on the code: in every run in which no signal reaches the
wrapper, `doExec` does not return and `finishSpan` has not run (nothing
exported, no exit code recorded, no trace context written); once the child
has terminated the main routine is blocked on the receive in `wait`. -/
theorem no_signal_never_returns (encode : Traceparent → String) (config : Config)
    (traceId spanId : String) (environ : List String) (arg0 : String) (rest : List String)
    (diag : Int) (events : List Event) (h : signalFree events = true) :
    ∃ s, doExec encode config traceId spanId environ (arg0 :: rest) diag events = some s ∧
      s.main ≠ MainPc.returned ∧ exports s = [] ∧ exitCodes s = [] ∧ traceContexts s = [] ∧
      (∀ r, Event.childDone r ∈ events → s.main = MainPc.waiting) := by
  obtain ⟨c, -, -, -, hs⟩ :=
    doExec_spec encode config traceId spanId environ arg0 rest diag events
  refine ⟨_, hs, ?_⟩
  have hq := quiet_run c diag events _ h (quiet_initial (NewProtobufSpan c traceId spanId) diag)
  obtain ⟨-, -, q3, q4, q5, -, q7⟩ := hq
  refine ⟨?_, q3, q4, q5, ?_⟩
  · rcases q7 with q7 | q7 <;> simp [q7]
  · intro r hr
    rcases q7 with q7 | q7
    · exact absurd q7 (childDone_leaves_run c events _ r hr)
    · exact q7

/-- Witness of the C2 theorem: the child exits with code 0 and the other
transitions are tried in turn; none is enabled. -/
theorem no_signal_never_returns_witness :
    signalFree [Event.childDone (RunResult.exited 0), Event.receive, Event.ret quietOutcome,
      Event.handle quietOutcome] = true ∧
    ∃ s, doExec sampleEncode recordingConfig "4bf92f35" "00f067aa" sampleEnviron
        ["echo", "hello"] 0
        [Event.childDone (RunResult.exited 0), Event.receive, Event.ret quietOutcome,
          Event.handle quietOutcome] = some s ∧
      s.main = MainPc.waiting ∧ exports s = [] ∧ exitCodes s = [] ∧ traceContexts s = [] := by
  obtain ⟨s, hs, -, h2, h3, h4, h5⟩ :=
    no_signal_never_returns sampleEncode recordingConfig "4bf92f35" "00f067aa"
      sampleEnviron "echo" ["hello"] 0
      [Event.childDone (RunResult.exited 0), Event.receive, Event.ret quietOutcome,
        Event.handle quietOutcome] (by decide)
  exact ⟨by decide, s, hs, h5 (RunResult.exited 0) (by simp), h2, h3, h4⟩

/-- C3 fails on the code: when the child exits with code `c` and no signal
reaches the wrapper, `doExec` does not return, no exit code is recorded and
`Diag.ExecExitCode` keeps the value it had on entry. -/
theorem no_signal_exit_code_unrecorded (encode : Traceparent → String) (config : Config)
    (traceId spanId : String) (environ : List String) (arg0 : String) (rest : List String)
    (diag c : Int) (events : List Event) (h : signalFree events = true) :
    ∃ s, doExec encode config traceId spanId environ (arg0 :: rest) diag
        (Event.childDone (RunResult.exited c) :: events) = some s ∧
      s.main ≠ MainPc.returned ∧ exitCodes s = [] ∧ s.execExitCode = diag := by
  obtain ⟨k, -, -, -, hs⟩ := doExec_spec encode config traceId spanId environ arg0 rest diag
    (Event.childDone (RunResult.exited c) :: events)
  refine ⟨_, hs, ?_⟩
  have hq := quiet_run k diag (Event.childDone (RunResult.exited c) :: events) _
    (by simpa [signalFree] using h) (quiet_initial (NewProtobufSpan k traceId spanId) diag)
  obtain ⟨-, -, -, q4, -, q6, q7⟩ := hq
  refine ⟨?_, q4, q6⟩
  rcases q7 with q7 | q7 <;> simp [q7]

/-- Witness of the C3 theorem: `exec sh -c "exit 2"` with no signal; the
exit code on record stays 0. -/
theorem no_signal_exit_code_unrecorded_witness :
    signalFree [Event.receive, Event.ret quietOutcome] = true ∧
    ∃ s, doExec sampleEncode recordingConfig "4bf92f35" "00f067aa" sampleEnviron
        ["sh", "-c", "exit 2"] 0
        (Event.childDone (RunResult.exited 2) :: [Event.receive, Event.ret quietOutcome])
          = some s ∧
      s.main ≠ MainPc.returned ∧ exitCodes s = [] ∧ s.execExitCode = 0 :=
  ⟨by decide, no_signal_exit_code_unrecorded sampleEncode recordingConfig "4bf92f35" "00f067aa"
    sampleEnviron "sh" ["-c", "exit 2"] 0 2 _ (by decide)⟩

/-- C9 fails on the code: a signal is handled while the child still runs,
then the child exits with code `c` and `doExec` returns. `finishSpan` has
run twice; the first run recorded `-1`, the value `ExitCode` gives for a
process state that is not set, and the deferred run replaced it by `c`,
which is what the caller finds in `Diag.ExecExitCode`. -/
theorem signal_before_exit_finalizes_twice (encode : Traceparent → String) (config : Config)
    (traceId spanId : String) (environ : List String) (arg0 : String) (rest : List String)
    (diag c : Int) (sig : Signal) (o1 o2 : Outcome) :
    ∃ s, doExec encode config traceId spanId environ (arg0 :: rest) diag
        [Event.signal sig, Event.handle o1, Event.childDone (RunResult.exited c),
         Event.receive, Event.ret o2] = some s ∧
      s.main = MainPc.returned ∧ (exports s).length = 2 ∧ exitCodes s = [-1, c] ∧
      s.execExitCode = c := by
  obtain ⟨k, -, -, -, hs⟩ := doExec_spec encode config traceId spanId environ arg0 rest diag
    [Event.signal sig, Event.handle o1, Event.childDone (RunResult.exited c),
     Event.receive, Event.ret o2]
  refine ⟨_, hs, ?_⟩
  simp only [run, List.foldl_cons, List.foldl_nil, exports, exitCodes]
  simp [step, initial, sigChanCap, finishSpan_sent, finishSpan_recorded, finishSpan_main,
    finishSpan_handler, finishSpan_sigChan, finishSpan_execExitCode, finishSpan_child,
    State.processState, ExitCode, RunResult.exited, List.filterMap_append, Effect.sent,
    Effect.recorded]

/-- C10, as the claim states it, fails for `exec printf ""`: the attribute
`arguments` written for the single empty token is a lone line feed, which
the reader skips as an empty line, so that no row comes back. -/
theorem csv_round_trip_loses_empty_token :
    ∃ l, prepare sampleEncode recordingConfig "4bf92f35" "00f067aa" sampleEnviron
        ["printf", ""] = some l ∧
      l.config.attributes.get "arguments" = some "\n" ∧
      ReadAll "\n" = .ok [] ∧ ReadAll "\n" ≠ .ok [[""]] := by
  refine ⟨_, rfl, by decide, by rfl, ?_⟩
  intro h
  have e : ReadAll "\n" = .ok [] := by rfl
  rw [e] at h
  simp at h

/-- A token with a carriage return before a line feed comes back without
the carriage return. -/
theorem csv_round_trip_drops_carriage_return :
    ReadAll (WriteAll [["a\r\nb"]]) = .ok [["a\nb"]] := by rfl

/-- C10, amended: for every non-empty list of argument tokens other than
the single empty token, in which no token holds a carriage return directly
followed by a line feed, reading the attribute `arguments` as CSV yields
exactly one row, whose fields are the tokens in their order. -/
theorem arguments_csv_round_trip (encode : Traceparent → String) (config : Config)
    (traceId spanId : String) (environ : List String) (arg0 : String) (tokens : List String)
    (h1 : tokens ≠ []) (h2 : tokens ≠ [""]) (h3 : ∀ t ∈ tokens, hasCRLF t.data = false) :
    ∃ l a, prepare encode config traceId spanId environ (arg0 :: tokens) = some l ∧
      l.config.attributes.get "arguments" = some a ∧ ReadAll a = .ok [tokens] := by
  obtain ⟨l, hl, -, -, -, -, h5, -, -⟩ :=
    prepare_spec encode config traceId spanId environ arg0 tokens
  refine ⟨l, WriteAll [tokens], hl, ?_, readAll_writeAll tokens h1 h2 h3⟩
  rw [h5, if_neg h1]

/-- Witness of C10: the tokens `a`, `b c`, `d`. -/
theorem arguments_csv_round_trip_witness :
    ∃ l, prepare sampleEncode recordingConfig "4bf92f35" "00f067aa" sampleEnviron
        ["cmd", "a", "b c", "d"] = some l ∧
      l.config.attributes.get "arguments" = some "a,b c,d\n" ∧
      ReadAll "a,b c,d\n" = .ok [["a", "b c", "d"]] := by
  obtain ⟨l, a, hl, ha, hr⟩ := arguments_csv_round_trip sampleEncode recordingConfig "4bf92f35"
    "00f067aa" sampleEnviron "cmd" ["a", "b c", "d"] (by decide) (by decide) (by decide)
  have e : (prepare sampleEncode recordingConfig "4bf92f35" "00f067aa" sampleEnviron
      ["cmd", "a", "b c", "d"]).bind (fun l => l.config.attributes.get "arguments")
        = some "a,b c,d\n" := by decide
  rw [hl] at e
  simp only [Option.some_bind] at e
  rw [e] at ha
  cases ha
  exact ⟨l, hl, e, hr⟩

/-- After `child.Run()` has returned, its result and the status line 141
gave the span stay as they are. -/
theorem child_kept (config : Config) (events : List Event) (s : State) (r : RunResult)
    (st : Option Status) (hm : s.main ≠ MainPc.inRun) (hc : s.child = some r)
    (hs : s.span.status = st) :
    (run config s events).child = some r ∧ (run config s events).span.status = st := by
  induction events generalizing s with
  | nil => exact ⟨hc, hs⟩
  | cons e es ih =>
    rw [run_cons]
    have h3 : (step config s e).main ≠ MainPc.inRun ∧ (step config s e).child = some r ∧
        (step config s e).span.status = st := by
      cases e with
      | signal sig => simp only [step]; split <;> exact ⟨hm, hc, hs⟩
      | childDone r1 =>
        by_cases h : s.main = MainPc.inRun
        · exact absurd h hm
        · simp only [step]
          exact ⟨hm, hc, hs⟩
      | handle o =>
        simp only [step]
        split
        · exact ⟨hm, hc, hs⟩
        · exact ⟨hm, hc, hs⟩
      | receive =>
        simp only [step]
        split
        · exact ⟨by simp, hc, hs⟩
        · exact ⟨hm, hc, hs⟩
      | ret o =>
        simp only [step]
        split
        · exact ⟨by simp, hc, hs⟩
        · exact ⟨hm, hc, hs⟩
    exact ih _ h3.1 h3.2.1 h3.2.2

/-- C8 fails on the code. When `child.Run()` returns the result `r` and no
signal reaches the wrapper, line 141 gives the span the error status for an
error of `Run` and leaves it unset otherwise, and `doExec` does not abort;
but the main routine then stays blocked in `wait`, so the span is never
exported and no exit code is recorded. And when a signal is handled while
the child still runs and `Run` then returns an error `e`, the span is
exported twice, the first time with the status unset, and the first
finalize records `-1`, not the child's exit code. -/
theorem run_error_status_not_finalized (encode : Traceparent → String) (config : Config)
    (traceId spanId : String) (environ : List String) (arg0 : String) (rest : List String)
    (diag : Int) (r : RunResult) (events : List Event) (sig : Signal) (o1 o2 : Outcome)
    (p : Option ProcessState) (e : String) (h : signalFree events = true) :
    (∃ s, doExec encode config traceId spanId environ (arg0 :: rest) diag
        (Event.childDone r :: events) = some s ∧
      s.child = some r ∧ s.span.status = r.err.map failedStatus ∧
      s.main = MainPc.waiting ∧ exports s = [] ∧ exitCodes s = [] ∧ s.execExitCode = diag) ∧
    (∃ t, doExec encode config traceId spanId environ (arg0 :: rest) diag
        [Event.signal sig, Event.handle o1,
         Event.childDone { processState := p, err := some e },
         Event.receive, Event.ret o2] = some t ∧
      t.main = MainPc.returned ∧
      (exports t).map (fun sp => sp.status) = [none, some (failedStatus e)] ∧
      exitCodes t = [-1, ExitCode p]) := by
  constructor
  · obtain ⟨c, -, -, -, hs⟩ := doExec_spec encode config traceId spanId environ arg0 rest diag
      (Event.childDone r :: events)
    refine ⟨_, hs, ?_⟩
    have hq := quiet_run c diag (Event.childDone r :: events) _
      (by simpa [signalFree] using h) (quiet_initial (NewProtobufSpan c traceId spanId) diag)
    obtain ⟨-, -, q3, q4, -, q6, q7⟩ := hq
    have hk := child_kept c events
      (step c (initial (NewProtobufSpan c traceId spanId) diag) (Event.childDone r)) r
      (r.err.map failedStatus) (by simp [step, initial]) (by simp [step, initial])
      (by cases hr : r.err <;> simp [step, initial, hr, NewProtobufSpan])
    rw [← run_cons] at hk
    refine ⟨hk.1, hk.2, ?_, q3, q4, q6⟩
    rcases q7 with q7 | q7
    · exact absurd q7 (childDone_leaves_run c _ _ r (by simp))
    · exact q7
  · obtain ⟨c, -, -, -, hs⟩ := doExec_spec encode config traceId spanId environ arg0 rest diag
      [Event.signal sig, Event.handle o1, Event.childDone { processState := p, err := some e },
       Event.receive, Event.ret o2]
    refine ⟨_, hs, ?_⟩
    simp only [run, List.foldl_cons, List.foldl_nil, exports, exitCodes]
    simp [step, initial, sigChanCap, finishSpan_sent, finishSpan_recorded, finishSpan_main,
      finishSpan_handler, finishSpan_sigChan, finishSpan_execExitCode, finishSpan_child,
      finishSpan_status, State.processState, ExitCode, List.filterMap_append, Effect.sent,
      Effect.recorded, NewProtobufSpan]

/-- Witness of the C8 theorem: `exec sh -c "exit 2"`. Without a signal the
span has the error status but is not exported and no exit code is recorded;
with a signal handled first the span is exported with the status unset. -/
theorem run_error_status_not_finalized_witness :
    signalFree [Event.receive, Event.ret quietOutcome] = true ∧
    (∃ s, doExec sampleEncode recordingConfig "4bf92f35" "00f067aa" sampleEnviron
        ["sh", "-c", "exit 2"] 0
        (Event.childDone (RunResult.exited 2) :: [Event.receive, Event.ret quietOutcome])
          = some s ∧
      s.span.status =
        some { message := "exec command failed:  exit status 2\n", code := StatusCode.error } ∧
      s.main = MainPc.waiting ∧ exports s = [] ∧ exitCodes s = [] ∧ s.execExitCode = 0) ∧
    (∃ t, doExec sampleEncode recordingConfig "4bf92f35" "00f067aa" sampleEnviron
        ["sh", "-c", "exit 2"] 0
        [Event.signal Signal.terminated, Event.handle quietOutcome,
         Event.childDone { processState := some { exitCode := 2 }, err := some "exit status 2" },
         Event.receive, Event.ret quietOutcome] = some t ∧
      (exports t).map (fun sp => sp.status) =
        [none, some { message := "exec command failed:  exit status 2\n",
                      code := StatusCode.error }] ∧
      exitCodes t = [-1, 2]) := by
  obtain ⟨⟨s, hs, -, h2, h3, h4, h5, h6⟩, ⟨t, ht, -, t2, t3⟩⟩ :=
    run_error_status_not_finalized sampleEncode recordingConfig "4bf92f35" "00f067aa"
      sampleEnviron "sh" ["-c", "exit 2"] 0 (RunResult.exited 2)
      [Event.receive, Event.ret quietOutcome] Signal.terminated quietOutcome quietOutcome
      (some { exitCode := 2 }) "exit status 2" (by decide)
  refine ⟨by decide, ⟨s, hs, ?_, h3, h4, h5, h6⟩, ⟨t, ht, ?_, ?_⟩⟩
  · rw [h2]; decide
  · rw [t2]; decide
  · rw [t3]; decide

end OtelCli
